import Mathlib

/-!
# Verification of the anoma-alpha parallel transaction scheduler and gossip topic

Shallow embedding of `src/vm/src/schedule.rs` (parallel transaction scheduler)
and `src/network/src/topic.rs` (HyParView gossip topic), together with proofs
of the specification claims about them.

Conventions:
* Machine collections (`HashSet`, `HashMap`) are modelled by `Finset` / key-set
  + lookup-function pairs; their iteration order never matters for the claims.
* External collaborators (the execution sandbox, the persistent state store,
  the network command sink) are modelled as function parameters / output lists.
* Addresses, peer ids and multiaddresses are opaque identifiers; we model them
  with `List Nat` (hierarchical account addresses) and `Nat` respectively.
-/

namespace AnomaVM

/-! ## Data model (anoma-primitives types used by the scheduler)

The `anoma_primitives` crate is part of the repository but not among the given
source files; the following definitions are modelled from the spec (§3 DATA
MODEL). -/

/-- Modelled from the spec: addresses form a hierarchical path; each address
exposes a finite ordered list of ancestor addresses.  We represent an address
as its list of path segments. -/
abbrev Address := List Nat

/-- Modelled from the spec: the ancestors of an address are its proper
non-empty path prefixes, in order. -/
def Address.ancestors (a : Address) : List Address :=
  (List.range (a.length - 1)).map (fun i => a.take (i + 1))

/-- Modelled from the spec: a predicate param is either a literal or an
`AccountRef(address)`. -/
inductive Param where
  | literal (v : Nat)
  | accountRef (a : Address)
deriving DecidableEq

/-- Modelled from the spec: predicate code is either inline or an account
reference (the second component of the source's `Code::AccountRef(addr, _)`
is irrelevant to the scheduler and elided). -/
inductive Code where
  | inline (v : Nat)
  | accountRef (a : Address)
deriving DecidableEq

/-- Modelled from the spec: a validity predicate with its params and code. -/
structure Predicate where
  params : List Param
  code : Code
deriving DecidableEq

/-- Modelled from the spec: an account holds an ordered collection of validity
predicates; `for_each` visits each of them in order. -/
structure Account where
  predicates : List Predicate
deriving DecidableEq

/-- Modelled from the spec: an intent with its expectation predicates
(an ordered collection, visited by `for_each`). -/
structure Intent where
  expectations : List Predicate
deriving DecidableEq

/-- Modelled from the spec: a transaction is a mapping from account address to
mutation proposal plus a list of intents.  The proposal payload is opaque to
the scheduler, so it is modelled by `Unit`. -/
structure Transaction where
  proposals : List (Address × Unit)
  intents : List Intent
deriving DecidableEq

instance : Inhabited Transaction := ⟨⟨[], []⟩⟩

/-- The state collaborator: `get(address) -> Option<Account>`, pure reads. -/
abbrev StateFn := Address → Option Account

/-- Modelled from the spec: a state diff is an accumulable set of account
mutations; `apply` layers a later diff on top of an earlier one.  The mutation
payload is opaque to the scheduler and modelled by `Nat`. -/
structure StateDiff where
  entries : List (Address × Nat)
deriving DecidableEq

instance : Inhabited StateDiff := ⟨⟨[]⟩⟩

/-- Modelled from the spec: `apply` layers a later diff on top: entries of the
later diff take precedence over entries of the base. -/
def StateDiff.apply (base d : StateDiff) : StateDiff :=
  ⟨d.entries ++ base.entries.filter (fun kv => ¬ (d.entries.map Prod.fst).contains kv.1)⟩

/-- Execution errors are opaque to the scheduler. -/
abbrev ExecutionError := Nat

/-- Result of executing one transaction. -/
abbrev ExecResult := Except ExecutionError StateDiff

/-- The execution collaborator `execute(tx, state, cache)`, with the base
state and the cache fixed; the varying argument is the accumulated diff of the
overlay (`Overlayed::new(state, &acc_state)`). -/
abbrev ExecFn := Transaction → StateDiff → ExecResult

/-! ## TransactionRefs (schedule.rs lines 230–325) -/

/-- `TransactionRefs`: the sets of accounts a transaction will read or write.
`HashSet<Address>` is modelled by `Finset Address`. -/
structure TransactionRefs where
  reads : Finset Address
  writes : Finset Address
deriving DecidableEq

instance : Inhabited TransactionRefs := ⟨⟨∅, ∅⟩⟩

/-- `TransactionRefs::depends_on`:
`self.reads.iter().any(|addr| other.writes.contains(addr)) ||
 self.writes.iter().any(|addr| other.writes.contains(addr))`. -/
def TransactionRefs.dependsOn (r0 other : TransactionRefs) : Prop :=
  (∃ a ∈ r0.reads, a ∈ other.writes) ∨ (∃ a ∈ r0.writes, a ∈ other.writes)

instance (r0 other : TransactionRefs) : Decidable (r0.dependsOn other) := by
  unfold TransactionRefs.dependsOn; infer_instance

/-- The body of the predicate walk in `TransactionRefs::new`: for each param of
shape `AccountRef(x)` and for code of shape `AccountRef(x, _)`, insert `x` into
`reads` iff `x ∉ writes`. -/
def collectPredReads (writes : Finset Address) (pred : Predicate)
    (reads : Finset Address) : Finset Address :=
  let r1 := pred.params.foldl
    (fun rs p =>
      match p with
      | Param.accountRef a => if a ∈ writes then rs else insert a rs
      | Param.literal _ => rs) reads
  match pred.code with
  | Code.accountRef a => if a ∈ writes then r1 else insert a r1
  | Code.inline _ => r1

/-- `acc.predicates.for_each(...)` with the predicate walk body. -/
def collectAccountReads (writes : Finset Address) (acc : Account)
    (reads : Finset Address) : Finset Address :=
  acc.predicates.foldl (fun rs p => collectPredReads writes p rs) reads

/-- `TransactionRefs::new(tx, state)` (schedule.rs lines 244–324): writes are
the proposal keys; reads are collected from the predicates of each mutated
account, of its ancestors, and of each intent's expectations — each inserted
only if not already a write. -/
def TransactionRefs.new (tx : Transaction) (state : StateFn) : TransactionRefs :=
  let writes : Finset Address := tx.proposals.foldl (fun ws kv => insert kv.1 ws) ∅
  let reads : Finset Address := ∅
  let reads := tx.proposals.foldl
    (fun rs kv =>
      match state kv.1 with
      | some acc =>
        let rs := collectAccountReads writes acc rs
        kv.1.ancestors.foldl
          (fun rs anc =>
            match state anc with
            | some acc2 => collectAccountReads writes acc2 rs
            | none => rs) rs
      | none => rs) reads
  let reads := tx.intents.foldl
    (fun rs intent =>
      intent.expectations.foldl (fun rs p => collectPredReads writes p rs) rs) reads
  ⟨reads, writes⟩

/-! ### Lemmas about `TransactionRefs.new` -/

theorem collectPredReads_subset_or (writes : Finset Address) (pred : Predicate)
    (reads : Finset Address) :
    ∀ x ∈ collectPredReads writes pred reads, x ∈ reads ∨ x ∉ writes := by
  unfold collectPredReads
  have hfold : ∀ (ps : List Param) (rs : Finset Address),
      ∀ x ∈ ps.foldl
        (fun rs p =>
          match p with
          | Param.accountRef a => if a ∈ writes then rs else insert a rs
          | Param.literal _ => rs) rs, x ∈ rs ∨ x ∉ writes := by
    intro ps
    induction ps with
    | nil => intro rs x hx; exact Or.inl hx
    | cons p ps ih =>
      intro rs x hx
      simp only [List.foldl_cons] at hx
      cases p with
      | literal v => exact ih rs x hx
      | accountRef a =>
        by_cases ha : a ∈ writes
        · simp only [ha, if_pos] at hx
          exact ih rs x hx
        · simp only [ha, if_neg, not_false_iff] at hx
          rcases ih _ x hx with h | h
          · rcases Finset.mem_insert.mp h with rfl | h
            · exact Or.inr ha
            · exact Or.inl h
          · exact Or.inr h
  intro x hx
  cases hc : pred.code with
  | inline v =>
    rw [hc] at hx
    exact hfold _ _ x hx
  | accountRef a =>
    rw [hc] at hx
    by_cases ha : a ∈ writes
    · simp only [ha, if_pos] at hx
      exact hfold _ _ x hx
    · simp only [ha, if_neg, not_false_iff] at hx
      rcases Finset.mem_insert.mp hx with rfl | h
      · exact Or.inr ha
      · exact hfold _ _ x h

theorem collectAccountReads_subset_or (writes : Finset Address) (acc : Account)
    (reads : Finset Address) :
    ∀ x ∈ collectAccountReads writes acc reads, x ∈ reads ∨ x ∉ writes := by
  unfold collectAccountReads
  induction acc.predicates generalizing reads with
  | nil => intro x hx; exact Or.inl hx
  | cons p ps ih =>
    intro x hx
    simp only [List.foldl_cons] at hx
    rcases ih _ x hx with h | h
    · rcases collectPredReads_subset_or writes p reads x h with h | h
      · exact Or.inl h
      · exact Or.inr h
    · exact Or.inr h

theorem foldl_inv {α β : Type} (f : β → α → β) (P : β → Prop)
    (step : ∀ b a, P b → P (f b a)) :
    ∀ (l : List α) (b : β), P b → P (l.foldl f b) := by
  intro l
  induction l with
  | nil => intro b hb; exact hb
  | cons a l ih => intro b hb; exact ih _ (step b a hb)

theorem writesFold_eq (l : List (Address × Unit)) :
    ∀ s : Finset Address,
      l.foldl (fun ws kv => insert kv.1 ws) s = s ∪ (l.map Prod.fst).toFinset := by
  induction l with
  | nil => intro s; simp
  | cons kv l ih =>
    intro s
    simp only [List.foldl_cons, List.map_cons, List.toFinset_cons, ih]
    ext x
    simp only [Finset.mem_union, Finset.mem_insert]
    tauto

theorem TransactionRefs.new_writes (tx : Transaction) (state : StateFn) :
    (TransactionRefs.new tx state).writes = (tx.proposals.map Prod.fst).toFinset := by
  unfold TransactionRefs.new
  simp only [writesFold_eq, Finset.empty_union]

theorem TransactionRefs.new_reads_notin_writes (tx : Transaction) (state : StateFn) :
    ∀ x ∈ (TransactionRefs.new tx state).reads, x ∉ (TransactionRefs.new tx state).writes := by
  unfold TransactionRefs.new
  intro x hx
  simp only at hx ⊢
  set writes : Finset Address := tx.proposals.foldl (fun ws kv => insert kv.1 ws) ∅ with hw
  have inv : ∀ rs : Finset Address, (∀ y ∈ rs, y ∉ writes) →
      ∀ y ∈ tx.intents.foldl
        (fun rs intent =>
          intent.expectations.foldl (fun rs p => collectPredReads writes p rs) rs)
        (tx.proposals.foldl
          (fun rs kv =>
            match state kv.1 with
            | some acc =>
              kv.1.ancestors.foldl
                (fun rs anc =>
                  match state anc with
                  | some acc2 => collectAccountReads writes acc2 rs
                  | none => rs) (collectAccountReads writes acc rs)
            | none => rs) rs), y ∉ writes := by
    intro rs hrs
    have h1 : ∀ y ∈ tx.proposals.foldl
        (fun rs kv =>
          match state kv.1 with
          | some acc =>
            kv.1.ancestors.foldl
              (fun rs anc =>
                match state anc with
                | some acc2 => collectAccountReads writes acc2 rs
                | none => rs) (collectAccountReads writes acc rs)
          | none => rs) rs, y ∉ writes := by
      refine foldl_inv _ (fun rs => ∀ y ∈ rs, y ∉ writes) ?_ tx.proposals rs hrs
      intro b kv hb
      cases hs : state kv.1 with
      | none => simpa [hs] using hb
      | some acc =>
        simp only [hs]
        refine foldl_inv _ (fun rs => ∀ y ∈ rs, y ∉ writes) ?_ kv.1.ancestors
          (collectAccountReads writes acc b) ?_
        · intro b2 anc hb2
          cases hs2 : state anc with
          | none => simpa [hs2] using hb2
          | some acc2 =>
            simp only [hs2]
            intro y hy
            rcases collectAccountReads_subset_or writes acc2 b2 y hy with h | h
            · exact hb2 y h
            · exact h
        · intro y hy
          rcases collectAccountReads_subset_or writes acc b y hy with h | h
          · exact hb y h
          · exact h
    refine foldl_inv _ (fun rs => ∀ y ∈ rs, y ∉ writes) ?_ tx.intents _ h1
    intro b intent hb
    refine foldl_inv _ (fun rs => ∀ y ∈ rs, y ∉ writes) ?_ intent.expectations b hb
    intro b2 p hb2
    intro y hy
    rcases collectPredReads_subset_or writes p b2 y hy with h | h
    · exact hb2 y h
    · exact h
  exact inv ∅ (by simp) x hx

/-- **C5.** For every transaction `t` and state, `TransactionRefs::new(t, state)`
returns refs whose `writes` set is exactly the set of keys of `t.proposals`,
and whose `reads` and `writes` sets are disjoint: an address reachable through
the predicate walk is inserted into `reads` only if it is not in `writes`. -/
theorem c5_transaction_refs_writes_exact_and_disjoint (tx : Transaction) (state : StateFn) :
    (TransactionRefs.new tx state).writes = (tx.proposals.map Prod.fst).toFinset ∧
    Disjoint (TransactionRefs.new tx state).reads (TransactionRefs.new tx state).writes := by
  refine ⟨TransactionRefs.new_writes tx state, ?_⟩
  rw [Finset.disjoint_left]
  intro x hx
  exact TransactionRefs.new_reads_notin_writes tx state x hx

/-! ## Dependency graph construction (schedule.rs lines 119–149)

`Schedule::new` adds one node per transaction in submission order (so node
index = submission index) and then, popping the `(refs, node)` deque from the
back, scans the remaining earlier entries in reverse and adds a single edge
from the first conflicting predecessor. -/

/-- The inner `'inner` scan: `for (r1, ix1) in refs.iter().rev()`, returning
the node index of the first conflicting predecessor. -/
def findDep (r0 : TransactionRefs) : List (Nat × TransactionRefs) → Option Nat
  | [] => none
  | (ix1, r1) :: rest => if r0.dependsOn r1 then some ix1 else findDep r0 rest

/-- The outer `while let Some((r0, ix0)) = refs.pop_back()` loop, operating on
the reversed list of `(node index, refs)` pairs; emits `(ix1, ix0)` edges. -/
def buildEdgesRev : List (Nat × TransactionRefs) → List (Nat × Nat)
  | [] => []
  | (ix0, r0) :: rest =>
    (match findDep r0 rest with
     | some ix1 => [(ix1, ix0)]
     | none => []) ++ buildEdgesRev rest

/-- The `(node index, refs)` deque of `Schedule::new` in popping order
(last submitted first). -/
def enumRev (l : List TransactionRefs) : List (Nat × TransactionRefs) :=
  l.enum.reverse

/-- Per-transaction refs of the batch (`TransactionRefs::new` on each tx). -/
def scheduleRefs (state : StateFn) (txs : List Transaction) : List TransactionRefs :=
  txs.map (fun tx => TransactionRefs.new tx state)

/-- The edge list of the dependency graph built by `Schedule::new`. -/
def scheduleEdges (refs : List TransactionRefs) : List (Nat × Nat) :=
  buildEdgesRev (enumRev refs)

/-- The unique candidate parent of node `j`: the first conflicting predecessor
found scanning from `j-1` backwards. -/
def parentOf (refs : List TransactionRefs) (j : Nat) : Option Nat :=
  match refs[j]? with
  | none => none
  | some r0 => findDep r0 (enumRev (refs.take j))

theorem enumRev_concat (l : List TransactionRefs) (x : TransactionRefs) :
    enumRev (l ++ [x]) = (l.length, x) :: enumRev l := by
  unfold enumRev
  rw [List.enum_append]
  simp [List.enumFrom]

theorem getElem?_some_lt {α : Type} (l : List α) (j : Nat) (a : α)
    (h : l[j]? = some a) : j < l.length := by
  by_contra hn
  rw [List.getElem?_eq_none (by omega)] at h
  simp at h

theorem mem_scheduleEdges (refs : List TransactionRefs) (k j : Nat) :
    (k, j) ∈ scheduleEdges refs ↔ parentOf refs j = some k := by
  unfold scheduleEdges parentOf
  induction refs using List.reverseRecOn with
  | nil => simp [enumRev, buildEdgesRev]
  | append_singleton l x ih =>
    rw [enumRev_concat]
    by_cases hj : j = l.length
    · subst hj
      have hget : (l ++ [x])[l.length]? = some x := by
        simp
      have htake : (l ++ [x]).take l.length = l := by
        simp
      rw [hget, htake]
      show _ ↔ findDep x (enumRev l) = some k
      constructor
      · intro hmem
        simp only [buildEdgesRev] at hmem
        rcases List.mem_append.mp hmem with h | h
        · cases hfd : findDep x (enumRev l) with
          | none => rw [hfd] at h; simp at h
          | some ix1 =>
            rw [hfd] at h
            simp only [List.mem_singleton] at h
            injection h with h1 h2
            rw [h1]
        · exfalso
          have hmm := ih.mp h
          have hg : l[l.length]? = none := List.getElem?_eq_none (le_refl _)
          rw [hg] at hmm
          simp at hmm
      · intro hfd
        simp only [buildEdgesRev]
        apply List.mem_append.mpr
        left
        rw [hfd]
        simp
    · have hget : (l ++ [x])[j]? = l[j]? := by
        by_cases hlt : j < l.length
        · rw [List.getElem?_append_left hlt]
        · have h1 : l.length ≤ j := by omega
          have h2 : (l ++ [x]).length ≤ j := by
            simp only [List.length_append, List.length_singleton]
            omega
          rw [List.getElem?_eq_none h2, List.getElem?_eq_none h1]
      have htake : (l ++ [x]).take j = l.take j ∨ l.length < j := by
        by_cases hle : j ≤ l.length
        · exact Or.inl (List.take_append_of_le_length hle)
        · exact Or.inr (by omega)
      rw [hget]
      simp only [buildEdgesRev]
      rw [List.mem_append]
      constructor
      · intro h
        rcases h with h | h
        · exfalso
          cases hfd : findDep x (enumRev l) with
          | none => rw [hfd] at h; simp at h
          | some ix1 =>
            rw [hfd] at h
            simp only [List.mem_singleton, Prod.mk.injEq] at h
            exact hj h.2
        · have hmm := ih.mp h
          rcases htake with ht | ht
          · rw [ht]
            exact hmm
          · cases hg : l[j]? with
            | none => rw [hg] at hmm; simp at hmm
            | some r0 =>
              exfalso
              have hlt := getElem?_some_lt l j r0 hg
              omega
      · intro h
        right
        apply ih.mpr
        rcases htake with ht | ht
        · rw [ht] at h
          exact h
        · cases hg : l[j]? with
          | none => rw [hg] at h; simp at h
          | some r0 =>
            exfalso
            have hlt := getElem?_some_lt l j r0 hg
            omega

theorem findDep_take_char (l : List TransactionRefs) (r0 : TransactionRefs) :
    ∀ j k, j ≤ l.length →
      (findDep r0 (enumRev (l.take j)) = some k ↔
        (k < j ∧ (∃ rk, l[k]? = some rk ∧ r0.dependsOn rk) ∧
          ∀ m rm, k < m → m < j → l[m]? = some rm → ¬ r0.dependsOn rm)) := by
  intro j
  induction j with
  | zero =>
    intro k hj
    simp [enumRev, findDep]
  | succ j ih =>
    intro k hj
    have hjlt : j < l.length := by omega
    have hget : l[j]? = some (l.get ⟨j, hjlt⟩) := by
      simp [List.getElem?_eq_getElem hjlt]
    set rj := l.get ⟨j, hjlt⟩ with hrj
    have htake : l.take (j + 1) = l.take j ++ [rj] := by
      rw [List.take_succ, hget]
      rfl
    have hlen : (l.take j).length = j := by
      simp
      omega
    rw [htake, enumRev_concat, hlen]
    simp only [findDep]
    by_cases hdep : r0.dependsOn rj
    · rw [if_pos hdep]
      constructor
      · intro h
        injection h with h
        subst h
        refine ⟨by omega, ⟨rj, hget, hdep⟩, ?_⟩
        intro m rm h1 h2 _ _
        omega
      · intro ⟨hk, ⟨rk, hgetk, hdepk⟩, hmin⟩
        by_cases hkj : k = j
        · rw [hkj]
        · exfalso
          exact hmin j rj (by omega) (by omega) hget hdep
    · rw [if_neg hdep]
      rw [ih k (by omega)]
      constructor
      · intro ⟨hk, hex, hmin⟩
        refine ⟨by omega, hex, ?_⟩
        intro m rm h1 h2 hgetm
        by_cases hmj : m = j
        · subst hmj
          rw [hget] at hgetm
          injection hgetm with hgetm
          rw [hgetm] at hdep
          exact hdep
        · exact hmin m rm h1 (by omega) hgetm
      · intro ⟨hk, hex, hmin⟩
        by_cases hkj : k = j
        · exfalso
          subst hkj
          rcases hex with ⟨rk, hgetk, hdepk⟩
          rw [hget] at hgetk
          injection hgetk with hgetk
          rw [hgetk] at hdep
          exact hdep hdepk
        · refine ⟨by omega, hex, ?_⟩
          intro m rm h1 h2 hgetm
          exact hmin m rm h1 (by omega) hgetm

theorem parentOf_char (refs : List TransactionRefs) (j k : Nat) :
    parentOf refs j = some k ↔
      (k < j ∧ ∃ rj rk, refs[j]? = some rj ∧ refs[k]? = some rk ∧
        rj.dependsOn rk ∧
        ∀ m rm, k < m → m < j → refs[m]? = some rm → ¬ rj.dependsOn rm) := by
  unfold parentOf
  cases hg : refs[j]? with
  | none =>
    simp only
    constructor
    · intro h; simp at h
    · intro ⟨_, rj, _, hgj, _⟩
      exact Option.noConfusion hgj
  | some r0 =>
    simp only
    have hjlt := getElem?_some_lt refs j r0 hg
    rw [findDep_take_char refs r0 j k (by omega)]
    constructor
    · intro ⟨hk, ⟨rk, hgetk, hdepk⟩, hmin⟩
      exact ⟨hk, r0, rk, rfl, hgetk, hdepk, fun m rm h1 h2 hm => hmin m rm h1 h2 hm⟩
    · intro ⟨hk, rj, rk, hgj, hgetk, hdepk, hmin⟩
      injection hgj with hgj
      subst hgj
      exact ⟨hk, ⟨rk, hgetk, hdepk⟩, hmin⟩

theorem parentOf_lt (refs : List TransactionRefs) (j k : Nat)
    (h : parentOf refs j = some k) : k < j :=
  ((parentOf_char refs j k).mp h).1

/-- **C3.** In the dependency graph built by `Schedule::new` over an ordered
batch, a later transaction depends on an earlier one exactly when their
read/write or write/write sets overlap (read-read overlap induces no
dependency), and each transaction receives at most one incoming edge, from the
nearest (highest-index) conflicting predecessor — scanning from the
immediately prior transaction backwards and stopping at the first conflict. -/
theorem c3_dependency_graph_edges (state : StateFn) (txs : List Transaction) :
    (∀ a b : TransactionRefs, a.dependsOn b ↔
      ((a.reads ∩ b.writes).Nonempty ∨ (a.writes ∩ b.writes).Nonempty)) ∧
    (∀ k j, (k, j) ∈ scheduleEdges (scheduleRefs state txs) ↔
      (k < j ∧ ∃ rj rk, (scheduleRefs state txs)[j]? = some rj ∧
        (scheduleRefs state txs)[k]? = some rk ∧ rj.dependsOn rk ∧
        ∀ m rm, k < m → m < j → (scheduleRefs state txs)[m]? = some rm →
          ¬ rj.dependsOn rm)) ∧
    (∀ j k k2, (k, j) ∈ scheduleEdges (scheduleRefs state txs) →
      (k2, j) ∈ scheduleEdges (scheduleRefs state txs) → k = k2) := by
  refine ⟨?_, ?_, ?_⟩
  · intro a b
    unfold TransactionRefs.dependsOn
    constructor
    · intro h
      rcases h with ⟨x, hx1, hx2⟩ | ⟨x, hx1, hx2⟩
      · exact Or.inl ⟨x, Finset.mem_inter.mpr ⟨hx1, hx2⟩⟩
      · exact Or.inr ⟨x, Finset.mem_inter.mpr ⟨hx1, hx2⟩⟩
    · intro h
      rcases h with ⟨x, hx⟩ | ⟨x, hx⟩
      · exact Or.inl ⟨x, (Finset.mem_inter.mp hx).1, (Finset.mem_inter.mp hx).2⟩
      · exact Or.inr ⟨x, (Finset.mem_inter.mp hx).1, (Finset.mem_inter.mp hx).2⟩
  · intro k j
    rw [mem_scheduleEdges, parentOf_char]
  · intro j k k2 h1 h2
    rw [mem_scheduleEdges] at h1 h2
    rw [h1] at h2
    injection h2

/-! ## The dependency graph and `BfsRows` (schedule.rs lines 327–395)

A `petgraph::DiGraph` is modelled by its node count and edge list.  A petgraph
graph structurally contains only valid node indices (adding an edge with a
dangling endpoint panics), hence the target bound in `Graph.adj`. -/

structure Graph where
  n : Nat
  edges : List (Nat × Nat)
deriving DecidableEq

/-- `graph.neighbors(node)`: targets of the outgoing edges of `v`. -/
def Graph.adj (g : Graph) (v : Nat) : List Nat :=
  (g.edges.filter (fun e => decide (e.1 = v ∧ e.2 < g.n))).map Prod.snd

/-- The dependency graph of `Schedule::new`: one node per transaction in
submission order, with the first-conflict edges. -/
def scheduleGraph (refs : List TransactionRefs) : Graph :=
  ⟨refs.length, scheduleEdges refs⟩

/-- The `for succ in graph.neighbors(node)` loop of `BfsRows::next`: push each
newly discovered successor on the back of the stack at the given level. -/
def pushNews (succs : List Nat) (stack : List (Nat × Nat)) (disc : List Nat)
    (lvl : Nat) : List (Nat × Nat) × List Nat :=
  match succs with
  | [] => (stack, disc)
  | s :: ss =>
    if s ∈ disc then pushNews ss stack disc lvl
    else pushNews ss (stack ++ [(s, lvl)]) (s :: disc) lvl

/-- The stack-free content of `pushNews`: the list of newly discovered
successors in order, and the updated visit map. -/
def newsPlain (succs : List Nat) (disc : List Nat) : List Nat × List Nat :=
  match succs with
  | [] => ([], disc)
  | s :: ss =>
    if s ∈ disc then newsPlain ss disc
    else
      ((s :: (newsPlain ss (s :: disc)).1), (newsPlain ss (s :: disc)).2)

/-- Expanding one whole BFS row: the concatenated newly discovered successors
of its nodes in order, threading the visit map. -/
def expandPlain (g : Graph) (L : List Nat) (disc : List Nat) :
    List Nat × List Nat :=
  match L with
  | [] => ([], disc)
  | v :: vs =>
    let p := newsPlain (g.adj v) disc
    let q := expandPlain g vs p.2
    (p.1 ++ q.1, q.2)

/-- The reference layered BFS: `(layerRec g start k).1` is the `k`-th BFS row
of the graph from `start`, `(layerRec g start k).2` the set of nodes
discovered up to and including that row. -/
def layerRec (g : Graph) (start : Nat) : Nat → List Nat × List Nat
  | 0 => ([start], [start])
  | k + 1 => expandPlain g (layerRec g start k).1 (layerRec g start k).2

def layer (g : Graph) (start k : Nat) : List Nat := (layerRec g start k).1

def discTo (g : Graph) (start k : Nat) : List Nat := (layerRec g start k).2

/-- The state of the `BfsRows` iterator: the `VecDeque` of `(node, level)`
pairs, the visit map, and the current row counter. -/
structure BfsRows where
  stack : List (Nat × Nat)
  discovered : List Nat
  row : Nat
deriving DecidableEq

/-- `BfsRows::new`: mark `start` discovered and push `(start, 0)`. -/
def BfsRows.new (start : Nat) : BfsRows := ⟨[(start, 0)], [start], 0⟩

/-- The `while let Some((node, level)) = self.stack.pop_front()` loop of
`BfsRows::next`, with explicit fuel (the fuel used by `BfsRows.next` is always
sufficient, see `bfsLoop_spec` and `bfs_step`).  Returns the accumulated row,
the remaining stack, and the visit map. -/
def bfsLoop (g : Graph) (fuel : Nat) (stack : List (Nat × Nat))
    (disc : List Nat) (row : Nat) (acc : List Nat) :
    List Nat × List (Nat × Nat) × List Nat :=
  match fuel with
  | 0 => (acc, stack, disc)
  | fuel + 1 =>
    match stack with
    | [] => (acc, [], disc)
    | (node, level) :: rest =>
      let p := pushNews (g.adj node) rest disc (level + 1)
      if level = row then bfsLoop g fuel p.1 p.2 row (acc ++ [node])
      else (acc, (node, level) :: p.1, p.2)

/-- `BfsRows::next`: run the loop, bump the row counter, return `None` iff the
gathered row is empty. -/
def BfsRows.next (g : Graph) (b : BfsRows) : Option (List Nat) × BfsRows :=
  let r := bfsLoop g (b.stack.length + 2 * g.n + 1) b.stack b.discovered b.row []
  (if r.1.length = 0 then none else some r.1, ⟨r.2.1, r.2.2, b.row + 1⟩)

/-- The successive calls to `BfsRows::next` from a fresh iterator. -/
def bfsSteps (g : Graph) (start : Nat) : Nat → Option (List Nat) × BfsRows
  | 0 => BfsRows.next g (BfsRows.new start)
  | k + 1 => BfsRows.next g (bfsSteps g start k).2

/-- The row returned by the `k`-th call to `BfsRows::next`. -/
def nthRow (g : Graph) (start k : Nat) : Option (List Nat) :=
  (bfsSteps g start k).1

/-! ### `newsPlain` and `pushNews` lemmas -/

theorem pushNews_eq (succs : List Nat) :
    ∀ (stack : List (Nat × Nat)) (disc : List Nat) (lvl : Nat),
      pushNews succs stack disc lvl =
        (stack ++ (newsPlain succs disc).1.map (fun v => (v, lvl)),
         (newsPlain succs disc).2) := by
  induction succs with
  | nil => intro stack disc lvl; simp [pushNews, newsPlain]
  | cons s ss ih =>
    intro stack disc lvl
    by_cases hs : s ∈ disc
    · simp [pushNews, newsPlain, hs, ih]
    · simp [pushNews, newsPlain, hs, ih]

theorem newsPlain_news_mem (succs : List Nat) :
    ∀ (disc : List Nat) (x : Nat),
      x ∈ (newsPlain succs disc).1 ↔ x ∈ succs ∧ x ∉ disc := by
  induction succs with
  | nil => intro disc x; simp [newsPlain]
  | cons s ss ih =>
    intro disc x
    by_cases hs : s ∈ disc
    · simp only [newsPlain, if_pos hs, ih, List.mem_cons]
      constructor
      · intro ⟨h1, h2⟩; exact ⟨Or.inr h1, h2⟩
      · intro ⟨h1, h2⟩
        rcases h1 with rfl | h1
        · exact absurd hs h2
        · exact ⟨h1, h2⟩
    · simp only [newsPlain, if_neg hs, List.mem_cons, ih]
      constructor
      · intro h
        rcases h with rfl | ⟨h1, h2⟩
        · exact ⟨Or.inl rfl, hs⟩
        · refine ⟨Or.inr h1, ?_⟩
          intro hd
          exact h2 (Or.inr hd)
      · intro ⟨h1, h2⟩
        rcases h1 with rfl | h1
        · exact Or.inl rfl
        · by_cases hxs : x = s
          · exact Or.inl hxs
          · refine Or.inr ⟨h1, ?_⟩
            intro hd
            rcases hd with h | h
            · exact hxs h
            · exact h2 h

theorem newsPlain_disc_mem (succs : List Nat) :
    ∀ (disc : List Nat) (x : Nat),
      x ∈ (newsPlain succs disc).2 ↔ x ∈ succs ∨ x ∈ disc := by
  induction succs with
  | nil => intro disc x; simp [newsPlain]
  | cons s ss ih =>
    intro disc x
    by_cases hs : s ∈ disc
    · simp only [newsPlain, if_pos hs, ih, List.mem_cons]
      constructor
      · intro h
        rcases h with h | h
        · exact Or.inl (Or.inr h)
        · exact Or.inr h
      · intro h
        rcases h with (rfl | h) | h
        · exact Or.inr hs
        · exact Or.inl h
        · exact Or.inr h
    · simp only [newsPlain, if_neg hs, ih, List.mem_cons]
      tauto

theorem newsPlain_absorbed (succs : List Nat) (disc : List Nat)
    (h : ∀ x ∈ succs, x ∈ disc) : newsPlain succs disc = ([], disc) := by
  induction succs with
  | nil => simp [newsPlain]
  | cons s ss ih =>
    have hs : s ∈ disc := h s (List.mem_cons_self s ss)
    simp only [newsPlain, if_pos hs]
    exact ih (fun x hx => h x (List.mem_cons_of_mem _ hx))

theorem newsPlain_news_nodup (succs : List Nat) :
    ∀ disc : List Nat, (newsPlain succs disc).1.Nodup := by
  induction succs with
  | nil => intro disc; simp [newsPlain]
  | cons s ss ih =>
    intro disc
    by_cases hs : s ∈ disc
    · simp only [newsPlain, if_pos hs]
      exact ih disc
    · simp only [newsPlain, if_neg hs, List.nodup_cons]
      refine ⟨?_, ih (s :: disc)⟩
      intro hmem
      have := (newsPlain_news_mem ss (s :: disc) s).mp hmem
      exact this.2 (List.mem_cons_self _ _)

/-! ### Simulation of `BfsRows::next` by the reference layered BFS -/

theorem bfsLoop_spec (g : Graph) (L : List Nat) :
    ∀ (S d acc : List Nat) (row fuel : Nat), L.length + 1 ≤ fuel →
      bfsLoop g fuel
        (L.map (fun v => (v, row)) ++ S.map (fun v => (v, row + 1))) d row acc =
      (match S ++ (expandPlain g L d).1 with
       | [] => (acc ++ L, [], (expandPlain g L d).2)
       | w :: ws =>
         (acc ++ L,
          (w, row + 1) ::
            (ws.map (fun v => (v, row + 1)) ++
             (newsPlain (g.adj w) (expandPlain g L d).2).1.map
               (fun v => (v, row + 2))),
          (newsPlain (g.adj w) (expandPlain g L d).2).2)) := by
  induction L with
  | nil =>
    intro S d acc row fuel hfuel
    obtain ⟨f, rfl⟩ : ∃ f, fuel = f + 1 := ⟨fuel - 1, by omega⟩
    cases S with
    | nil =>
      simp [bfsLoop, expandPlain]
    | cons w ws =>
      simp only [List.map_nil, List.nil_append, List.map_cons, bfsLoop,
        expandPlain, List.append_nil]
      rw [pushNews_eq]
      have hne : ¬ (row + 1 = row) := by omega
      rw [if_neg hne]
  | cons v vs ih =>
    intro S d acc row fuel hfuel
    obtain ⟨f, rfl⟩ : ∃ f, fuel = f + 1 := ⟨fuel - 1, by omega⟩
    simp only [List.map_cons, List.cons_append, bfsLoop]
    rw [pushNews_eq]
    rw [if_true]
    have hstack :
        (vs.map (fun v => (v, row)) ++ S.map (fun v => (v, row + 1))) ++
          (newsPlain (g.adj v) d).1.map (fun v => (v, row + 1)) =
        vs.map (fun v => (v, row)) ++
          (S ++ (newsPlain (g.adj v) d).1).map (fun v => (v, row + 1)) := by
      simp [List.map_append]
    rw [hstack]
    rw [ih (S ++ (newsPlain (g.adj v) d).1) (newsPlain (g.adj v) d).2
      (acc ++ [v]) row f (by simp at hfuel ⊢; omega)]
    have hexp :
        expandPlain g (v :: vs) d =
          ((newsPlain (g.adj v) d).1 ++
             (expandPlain g vs (newsPlain (g.adj v) d).2).1,
           (expandPlain g vs (newsPlain (g.adj v) d).2).2) := by
      simp [expandPlain]
    rw [hexp]
    have hassoc :
        (S ++ (newsPlain (g.adj v) d).1) ++
            (expandPlain g vs (newsPlain (g.adj v) d).2).1 =
          S ++ ((newsPlain (g.adj v) d).1 ++
            (expandPlain g vs (newsPlain (g.adj v) d).2).1) := by
      simp
    rw [hassoc]
    have hacc : (acc ++ [v]) ++ vs = acc ++ v :: vs := by simp
    cases hS : S ++ ((newsPlain (g.adj v) d).1 ++
        (expandPlain g vs (newsPlain (g.adj v) d).2).1) with
    | nil => simp only [hacc]
    | cons w ws => simp only [hacc]

/-- The invariant tying the state of a `BfsRows` iterator before its `k`-th
call to the reference layered BFS: the stack holds the whole `k`-th layer
followed by the already-expanded news of its eventual first successor, and the
visit map is one head-expansion ahead of `discTo k`. -/
def BfsInv (g : Graph) (start k : Nat) (b : BfsRows) : Prop :=
  b.row = k ∧ ∃ s t,
    b.stack = (layer g start k).map (fun v => (v, k)) ++
      s.map (fun v => (v, k + 1)) ∧
    expandPlain g (layer g start k) b.discovered =
      (t, discTo g start (k + 1)) ∧
    s ++ t = layer g start (k + 1)

theorem bfsInv_new (g : Graph) (start : Nat) :
    BfsInv g start 0 (BfsRows.new start) := by
  refine ⟨rfl, [], layer g start 1, ?_, ?_, ?_⟩
  · rfl
  · rfl
  · simp

theorem bfs_step (g : Graph) (start k : Nat) (b : BfsRows)
    (h : BfsInv g start k b) :
    (BfsRows.next g b).1 =
      (if (layer g start k).length = 0 then none else some (layer g start k)) ∧
    BfsInv g start (k + 1) (BfsRows.next g b).2 := by
  obtain ⟨hrow, s, t, hstack, hexp, hst⟩ := h
  unfold BfsRows.next
  rw [hstack, hrow]
  rw [bfsLoop_spec g (layer g start k) s b.discovered [] k _ (by simp; omega)]
  rw [hexp]
  simp only [List.nil_append]
  rw [hst]
  cases hL : layer g start (k + 1) with
  | nil =>
    have hl2 : layer g start (k + 1 + 1) = [] := by
      show (expandPlain g (layerRec g start (k + 1)).1
        (layerRec g start (k + 1)).2).1 = []
      rw [show (layerRec g start (k + 1)).1 = [] from hL]
      rfl
    have hd2 : discTo g start (k + 1 + 1) = discTo g start (k + 1) := by
      show (expandPlain g (layerRec g start (k + 1)).1
        (layerRec g start (k + 1)).2).2 = _
      rw [show (layerRec g start (k + 1)).1 = [] from hL]
      rfl
    constructor
    · rfl
    · refine ⟨rfl, [], [], ?_, ?_, ?_⟩
      · simp [hL]
      · rw [hL, hd2]
        rfl
      · rw [hl2]
        rfl
  | cons w ws =>
    have habs : newsPlain (g.adj w)
        (newsPlain (g.adj w) (discTo g start (k + 1))).2 =
        ([], (newsPlain (g.adj w) (discTo g start (k + 1))).2) := by
      apply newsPlain_absorbed
      intro x hx
      exact (newsPlain_disc_mem _ _ _).mpr (Or.inl hx)
    have hl2 : layer g start (k + 1 + 1) =
        (newsPlain (g.adj w) (discTo g start (k + 1))).1 ++
          (expandPlain g ws
            (newsPlain (g.adj w) (discTo g start (k + 1))).2).1 := by
      show (expandPlain g (layerRec g start (k + 1)).1
        (layerRec g start (k + 1)).2).1 = _
      rw [show (layerRec g start (k + 1)).1 = w :: ws from hL]
      show (expandPlain g (w :: ws) (discTo g start (k + 1))).1 = _
      simp [expandPlain]
    have hd2 : discTo g start (k + 1 + 1) =
        (expandPlain g ws
          (newsPlain (g.adj w) (discTo g start (k + 1))).2).2 := by
      show (expandPlain g (layerRec g start (k + 1)).1
        (layerRec g start (k + 1)).2).2 = _
      rw [show (layerRec g start (k + 1)).1 = w :: ws from hL]
      show (expandPlain g (w :: ws) (discTo g start (k + 1))).2 = _
      simp [expandPlain]
    constructor
    · rfl
    · refine ⟨rfl, (newsPlain (g.adj w) (discTo g start (k + 1))).1,
        (expandPlain g ws
          (newsPlain (g.adj w) (discTo g start (k + 1))).2).1, ?_, ?_, ?_⟩
      · simp [hL]
      · rw [hL, hd2]
        show expandPlain g (w :: ws)
          (newsPlain (g.adj w) (discTo g start (k + 1))).2 = _
        simp only [expandPlain, habs, List.nil_append]
      · rw [hl2]

theorem bfsSteps_spec (g : Graph) (start : Nat) : ∀ k : Nat,
    (bfsSteps g start k).1 =
      (if (layer g start k).length = 0 then none else some (layer g start k)) ∧
    BfsInv g start (k + 1) (bfsSteps g start k).2 := by
  intro k
  induction k with
  | zero => exact bfs_step g start 0 _ (bfsInv_new g start)
  | succ k ih => exact bfs_step g start (k + 1) _ ih.2

theorem nthRow_eq_layer (g : Graph) (start k : Nat) :
    (nthRow g start k).getD [] = layer g start k := by
  have h := (bfsSteps_spec g start k).1
  unfold nthRow
  rw [h]
  by_cases hl : (layer g start k).length = 0
  · rw [if_pos hl]
    have : layer g start k = [] := List.length_eq_zero.mp hl
    rw [this]
    rfl
  · rw [if_neg hl]
    rfl

/-! ### Properties of the reference layers -/

theorem mem_adj (g : Graph) (v x : Nat) :
    x ∈ g.adj v ↔ ((v, x) ∈ g.edges ∧ x < g.n) := by
  unfold Graph.adj
  simp only [List.mem_map, List.mem_filter, decide_eq_true_eq]
  constructor
  · intro ⟨e, ⟨he, h1, h2⟩, h3⟩
    subst h3
    rcases e with ⟨a, b⟩
    simp only at h1 ⊢
    subst h1
    exact ⟨he, h2⟩
  · intro ⟨he, hx⟩
    exact ⟨(v, x), ⟨he, rfl, hx⟩, rfl⟩

theorem adj_lt_n (g : Graph) (v x : Nat) (h : x ∈ g.adj v) : x < g.n :=
  ((mem_adj g v x).mp h).2

theorem expandPlain_news_mem (g : Graph) (L : List Nat) :
    ∀ (d : List Nat) (x : Nat),
      x ∈ (expandPlain g L d).1 ↔ (x ∉ d ∧ ∃ u ∈ L, x ∈ g.adj u) := by
  induction L with
  | nil => intro d x; simp [expandPlain]
  | cons v vs ih =>
    intro d x
    simp only [expandPlain, List.mem_append]
    rw [newsPlain_news_mem, ih]
    rw [newsPlain_disc_mem]
    simp only [List.mem_cons]
    constructor
    · intro h
      rcases h with ⟨h1, h2⟩ | ⟨h1, u, h2, h3⟩
      · exact ⟨h2, v, Or.inl rfl, h1⟩
      · refine ⟨fun hd => h1 (Or.inr hd), u, Or.inr h2, h3⟩
    · intro ⟨hd, u, hu, hadj⟩
      rcases hu with rfl | hu
      · exact Or.inl ⟨hadj, hd⟩
      · by_cases hv : x ∈ g.adj u ∧ x ∈ g.adj v
        · exact Or.inl ⟨hv.2, hd⟩
        · by_cases hv2 : x ∈ g.adj v
          · exact Or.inl ⟨hv2, hd⟩
          · refine Or.inr ⟨?_, u, hu, hadj⟩
            intro hmem
            rcases hmem with h | h
            · exact hv2 h
            · exact hd h

theorem expandPlain_disc_mem (g : Graph) (L : List Nat) :
    ∀ (d : List Nat) (x : Nat),
      x ∈ (expandPlain g L d).2 ↔ (x ∈ d ∨ ∃ u ∈ L, x ∈ g.adj u) := by
  induction L with
  | nil => intro d x; simp [expandPlain]
  | cons v vs ih =>
    intro d x
    simp only [expandPlain]
    rw [ih, newsPlain_disc_mem]
    simp only [List.mem_cons]
    constructor
    · intro h
      rcases h with (h | h) | ⟨u, h1, h2⟩
      · exact Or.inr ⟨v, Or.inl rfl, h⟩
      · exact Or.inl h
      · exact Or.inr ⟨u, Or.inr h1, h2⟩
    · intro h
      rcases h with h | ⟨u, h1, h2⟩
      · exact Or.inl (Or.inr h)
      · rcases h1 with rfl | h1
        · exact Or.inl (Or.inl h2)
        · exact Or.inr ⟨u, h1, h2⟩

theorem expandPlain_news_nodup (g : Graph) (L : List Nat) :
    ∀ d : List Nat, (expandPlain g L d).1.Nodup := by
  induction L with
  | nil => intro d; simp [expandPlain]
  | cons v vs ih =>
    intro d
    simp only [expandPlain]
    apply List.Nodup.append (newsPlain_news_nodup _ _) (ih _)
    intro x hx1 hx2
    have h1 : x ∈ (newsPlain (g.adj v) d).2 :=
      (newsPlain_disc_mem _ _ _).mpr
        (Or.inl ((newsPlain_news_mem _ _ _).mp hx1).1)
    exact ((expandPlain_news_mem g vs _ x).mp hx2).1 h1

theorem layer_nodup (g : Graph) (start : Nat) : ∀ k, (layer g start k).Nodup := by
  intro k
  cases k with
  | zero => simp [layer, layerRec]
  | succ k => exact expandPlain_news_nodup g _ _

theorem layer_mem_discTo (g : Graph) (start : Nat) :
    ∀ k x, x ∈ layer g start k → x ∈ discTo g start k := by
  intro k x
  cases k with
  | zero => exact fun h => h
  | succ k =>
    intro h
    have h2 := (expandPlain_news_mem g (layer g start k) (discTo g start k) x).mp h
    exact (expandPlain_disc_mem g (layer g start k) (discTo g start k) x).mpr
      (Or.inr h2.2)

theorem discTo_mono_succ (g : Graph) (start : Nat) (k x : Nat)
    (h : x ∈ discTo g start k) : x ∈ discTo g start (k + 1) :=
  (expandPlain_disc_mem g (layer g start k) (discTo g start k) x).mpr (Or.inl h)

theorem discTo_mono (g : Graph) (start : Nat) :
    ∀ j k, j ≤ k → ∀ x, x ∈ discTo g start j → x ∈ discTo g start k := by
  intro j k
  induction k with
  | zero => intro hj x hx; have : j = 0 := by omega
            subst this; exact hx
  | succ k ih =>
    intro hj x hx
    by_cases hjk : j = k + 1
    · subst hjk; exact hx
    · exact discTo_mono_succ g start k x (ih (by omega) x hx)

theorem layer_fresh (g : Graph) (start k x : Nat)
    (h : x ∈ layer g start (k + 1)) : x ∉ discTo g start k :=
  ((expandPlain_news_mem g (layer g start k) (discTo g start k) x).mp h).1

theorem layer_pairwise_disjoint (g : Graph) (start : Nat) (j k x : Nat)
    (hjk : j < k) (h1 : x ∈ layer g start j) (h2 : x ∈ layer g start k) :
    False := by
  obtain ⟨m, rfl⟩ : ∃ m, k = m + 1 := ⟨k - 1, by omega⟩
  have hd : x ∈ discTo g start m :=
    discTo_mono g start j m (by omega) x (layer_mem_discTo g start j x h1)
  exact layer_fresh g start m x h2 hd

theorem layer_lt_n (g : Graph) (start : Nat) (hs : start < g.n) :
    ∀ k x, x ∈ layer g start k → x < g.n := by
  intro k x
  cases k with
  | zero =>
    intro h
    have : x = start := by simpa [layer, layerRec] using h
    omega
  | succ k =>
    intro h
    have h2 := (expandPlain_news_mem g (layer g start k) (discTo g start k) x).mp h
    obtain ⟨u, _, hadj⟩ := h2.2
    exact adj_lt_n g u x hadj

theorem layer_empty_succ (g : Graph) (start k : Nat)
    (h : layer g start k = []) : layer g start (k + 1) = [] := by
  show (expandPlain g (layerRec g start k).1 (layerRec g start k).2).1 = []
  rw [show (layerRec g start k).1 = [] from h]
  rfl

theorem layer_empty_mono (g : Graph) (start : Nat) :
    ∀ j k, j ≤ k → layer g start j = [] → layer g start k = [] := by
  intro j k
  induction k with
  | zero => intro hj h; have : j = 0 := by omega
            subst this; exact h
  | succ k ih =>
    intro hj h
    by_cases hjk : j = k + 1
    · subst hjk; exact h
    · exact layer_empty_succ g start k (ih (by omega) h)

theorem layer_empty_at_n (g : Graph) (start : Nat) (hs : start < g.n) :
    layer g start g.n = [] := by
  by_contra hne
  have hall : ∀ j : Fin (g.n + 1), layer g start j ≠ [] := by
    intro j hj
    exact hne (layer_empty_mono g start j g.n (by omega) hj)
  let f : Fin (g.n + 1) → Fin g.n := fun j =>
    ⟨(layer g start j).head (hall j),
     layer_lt_n g start hs j _ (List.head_mem (hall j))⟩
  have hinj : Function.Injective f := by
    intro j1 j2 hf
    by_contra hne2
    have hne3 : (j1 : Nat) ≠ (j2 : Nat) := fun h => hne2 (Fin.ext h)
    have hmem1 : (layer g start j1).head (hall j1) ∈ layer g start j1 :=
      List.head_mem _
    have hmem2 : (layer g start j2).head (hall j2) ∈ layer g start j2 :=
      List.head_mem _
    have heq : (layer g start j1).head (hall j1) =
        (layer g start j2).head (hall j2) := congrArg Fin.val hf
    rcases Nat.lt_or_ge j1 j2 with hlt | hge
    · exact layer_pairwise_disjoint g start j1 j2 _ hlt hmem1 (heq ▸ hmem2)
    · have hlt2 : (j2 : Nat) < j1 := by omega
      exact layer_pairwise_disjoint g start j2 j1 _ hlt2 hmem2 (heq ▸ hmem1)
  have := Fintype.card_le_of_injective f hinj
  simp at this

/-! ### BFS depth: `reachSet g start k` is the list of nodes reachable from
`start` by a path of exactly `k` edges. -/

def reachSet (g : Graph) (start : Nat) : Nat → List Nat
  | 0 => [start]
  | k + 1 => (reachSet g start k).flatMap g.adj

theorem discTo_layer_reach (g : Graph) (start : Nat) : ∀ k,
    (∀ x, x ∈ discTo g start k ↔ ∃ j, j ≤ k ∧ x ∈ reachSet g start j) ∧
    (∀ x, x ∈ layer g start k ↔
      (x ∈ reachSet g start k ∧ ∀ j, j < k → x ∉ reachSet g start j)) := by
  intro k
  induction k with
  | zero =>
    constructor
    · intro x
      constructor
      · intro h; exact ⟨0, le_refl _, h⟩
      · intro ⟨j, hj, hx⟩
        have : j = 0 := by omega
        subst this; exact hx
    · intro x
      constructor
      · intro h; exact ⟨h, fun j hj => by omega⟩
      · intro ⟨h, _⟩; exact h
  | succ k ih =>
    obtain ⟨ihd, ihl⟩ := ih
    have hup : ∀ x, (∃ u ∈ layer g start k, x ∈ g.adj u) →
        x ∈ reachSet g start (k + 1) := by
      intro x ⟨u, hu, hadj⟩
      have : u ∈ reachSet g start k := ((ihl u).mp hu).1
      exact List.mem_flatMap.mpr ⟨u, this, hadj⟩
    have hdown : ∀ x, x ∈ reachSet g start (k + 1) →
        (∀ j, j ≤ k → x ∉ reachSet g start j) →
        ∃ u ∈ layer g start k, x ∈ g.adj u := by
      intro x hx hmin
      obtain ⟨u, hu, hadj⟩ := List.mem_flatMap.mp hx
      refine ⟨u, (ihl u).mpr ⟨hu, ?_⟩, hadj⟩
      intro j hj hmem
      have : x ∈ reachSet g start (j + 1) := List.mem_flatMap.mpr ⟨u, hmem, hadj⟩
      exact hmin (j + 1) (by omega) this
    have hexp1 : ∀ x, x ∈ layer g start (k + 1) ↔
        (x ∉ discTo g start k ∧ ∃ u ∈ layer g start k, x ∈ g.adj u) :=
      fun x => expandPlain_news_mem g (layer g start k) (discTo g start k) x
    have hexp2 : ∀ x, x ∈ discTo g start (k + 1) ↔
        (x ∈ discTo g start k ∨ ∃ u ∈ layer g start k, x ∈ g.adj u) :=
      fun x => expandPlain_disc_mem g (layer g start k) (discTo g start k) x
    constructor
    · intro x
      rw [hexp2]
      constructor
      · intro h
        rcases h with h | h
        · obtain ⟨j, hj, hx⟩ := (ihd x).mp h
          exact ⟨j, by omega, hx⟩
        · exact ⟨k + 1, le_refl _, hup x h⟩
      · intro ⟨j, hj, hx⟩
        by_cases hex : ∃ j2, j2 ≤ k ∧ x ∈ reachSet g start j2
        · exact Or.inl ((ihd x).mpr hex)
        · push_neg at hex
          have hj2 : j = k + 1 := by
            by_contra hne
            exact hex j (by omega) hx
          subst hj2
          exact Or.inr (hdown x hx hex)
    · intro x
      rw [hexp1]
      constructor
      · intro ⟨h1, h2⟩
        refine ⟨hup x h2, ?_⟩
        intro j hj hmem
        exact h1 ((ihd x).mpr ⟨j, by omega, hmem⟩)
      · intro ⟨h1, h2⟩
        have hmin : ∀ j, j ≤ k → x ∉ reachSet g start j :=
          fun j hj => h2 j (by omega)
        refine ⟨?_, hdown x h1 hmin⟩
        intro hd
        obtain ⟨j, hj, hx⟩ := (ihd x).mp hd
        exact hmin j hj hx

/-- **C4.** For every dependency graph and start node, successive calls to
`BfsRows::next` return the nodes reachable from the start grouped by BFS
depth: the `k`-th call returns exactly the nodes at depth `k` (reachable by a
shortest path of `k` edges), deferring deeper successors to later calls; each
reachable node appears in exactly one returned row, and never twice within a
row — so each graph node is visited exactly once over the iterator's
lifetime. -/
theorem c4_bfs_rows_depth (g : Graph) (start : Nat) :
    (∀ k v, v ∈ (nthRow g start k).getD [] ↔
      (v ∈ reachSet g start k ∧ ∀ j, j < k → v ∉ reachSet g start j)) ∧
    (∀ v, (∃ j, v ∈ reachSet g start j) →
      ∃! k, v ∈ (nthRow g start k).getD []) ∧
    (∀ k, ((nthRow g start k).getD []).Nodup) := by
  have hrow : ∀ k, (nthRow g start k).getD [] = layer g start k :=
    nthRow_eq_layer g start
  refine ⟨?_, ?_, ?_⟩
  · intro k v
    rw [hrow]
    exact (discTo_layer_reach g start k).2 v
  · intro v hex
    refine ⟨Nat.find hex, ?_, ?_⟩
    · show v ∈ (nthRow g start (Nat.find hex)).getD []
      rw [hrow]
      exact ((discTo_layer_reach g start (Nat.find hex)).2 v).mpr
        ⟨Nat.find_spec hex, fun j hj => Nat.find_min hex hj⟩
    · intro k hk
      rw [hrow] at hk
      have hc := ((discTo_layer_reach g start k).2 v).mp hk
      have h1 : Nat.find hex ≤ k := Nat.find_min' hex hc.1
      have h2 : ¬ (Nat.find hex < k) := fun hlt =>
        hc.2 (Nat.find hex) hlt (Nat.find_spec hex)
      omega
  · intro k
    rw [hrow]
    exact layer_nodup g start k

/-! ## Tree execution (`Tree::run`, schedule.rs lines 66–117) -/

/-- Node `v` of the graph built by `Schedule::new` holds the pair
`(txs[v], v)` (nodes are added in submission order). -/
def txAt (txs : List Transaction) (v : Nat) : Transaction := txs.getD v default

/-- One BFS row executed in parallel: each transaction is run against the
overlay of the base state with the accumulated diff `acc`, keeping its
original submission index (`rayon`'s indexed parallel map preserves order). -/
def rowResults (ex : ExecFn) (txs : List Transaction) (acc : StateDiff)
    (row : List Nat) : List (ExecResult × Nat) :=
  row.map (fun v => (ex (txAt txs v) acc, v))

/-- The `for (result, ix) in results` fold of `Tree::run`: successful diffs
are applied to the accumulator, errors contribute nothing. -/
def applyRow (acc : StateDiff) : List (ExecResult × Nat) → StateDiff
  | [] => acc
  | (r, _) :: rest =>
    applyRow (match r with
      | Except.ok d => acc.apply d
      | Except.error _ => acc) rest

/-- The `while let Some(row) = iter.next(...)` loop of `Tree::run`.  The fuel
`g.n + 1` used by `treeRun` always suffices because the layers of a graph with
`g.n` nodes are exhausted after at most `g.n` rows. -/
def treeRunAux (g : Graph) (ex : ExecFn) (txs : List Transaction) :
    Nat → BfsRows → StateDiff → List (ExecResult × Nat)
  | 0, _, _ => []
  | fuel + 1, b, acc =>
    match BfsRows.next g b with
    | (none, _) => []
    | (some row, b2) =>
      rowResults ex txs acc row ++
        treeRunAux g ex txs fuel b2 (applyRow acc (rowResults ex txs acc row))

/-- `Tree::run`: execute the dependency tree rooted at `root` row by row,
accumulating state diffs, starting from the empty diff. -/
def treeRun (g : Graph) (ex : ExecFn) (txs : List Transaction) (root : Nat) :
    List (ExecResult × Nat) :=
  treeRunAux g ex txs (g.n + 1) (BfsRows.new root) default

/-- The accumulated diff visible to row `k` of the tree rooted at `root`:
the fold of the diffs of the successful transactions of rows `0 .. k-1`. -/
def specAcc (g : Graph) (ex : ExecFn) (txs : List Transaction) (root : Nat) :
    Nat → StateDiff
  | 0 => default
  | k + 1 =>
    applyRow (specAcc g ex txs root k)
      (rowResults ex txs (specAcc g ex txs root k) (layer g root k))

/-! ## Forest partition (`Schedule::roots`, schedule.rs lines 181–212) -/

/-- `graph.edges_directed(index, Incoming).last()`: the source of the last
incoming edge of `v` (in the dependency graph every node has at most one
incoming edge, so this is the unique one). -/
def lastIncoming (g : Graph) (v : Nat) : Option Nat :=
  ((g.edges.filter (fun e => decide (e.2 = v))).map Prod.fst).getLast?

/-- The `while let Some(up) = graph.edges_directed(index, Incoming).last()`
walk of `Schedule::roots`, with explicit fuel. -/
def rootWalkAux (g : Graph) : Nat → Nat → Nat
  | 0, v => v
  | fuel + 1, v =>
    match lastIncoming g v with
    | none => v
    | some u => rootWalkAux g fuel u

/-- The backward walk of `Schedule::roots` from a node to the root of its
tree; fuel `g.n` always suffices because each step strictly decreases the
node index. -/
def rootWalk (g : Graph) (v : Nat) : Nat := rootWalkAux g g.n v

/-- The per-node labelling of `UnionFind::into_labeling`.  `petgraph`'s
union-find (an external library) labels every node with a representative of
its weakly connected component; which member represents a component is
unspecified and irrelevant here, because `Schedule::roots` immediately walks
every deduplicated label back to the root of its tree and that walk sends all
members of a component to the same root.  We therefore model the
representative of `v`'s component directly as the root `rootWalk v`. -/
def scheduleLabels (refs : List TransactionRefs) : List Nat :=
  (List.range refs.length).map (fun v => rootWalk (scheduleGraph refs) v)

/-- `Schedule::roots`: sort the labelling, deduplicate it (one representative
per weakly connected component), and walk each representative back along
incoming edges to the root of its tree. -/
def scheduleRoots (refs : List TransactionRefs) : List Nat :=
  (((scheduleLabels refs).insertionSort (· ≤ ·)).dedup).map
    (fun v => rootWalk (scheduleGraph refs) v)

/-! ## `Schedule::run` and `execute_many` (schedule.rs lines 37–43, 151–165) -/

/-- The comparator of `trees.sort_by(|(_, ix1), (_, ix2)| ix1.cmp(ix2))`. -/
def ixLe (a b : ExecResult × Nat) : Prop := a.2 ≤ b.2

instance : DecidableRel ixLe := fun a b => Nat.decLe a.2 b.2

instance : IsTotal (ExecResult × Nat) ixLe := ⟨fun a b => Nat.le_total a.2 b.2⟩

instance : IsTrans (ExecResult × Nat) ixLe :=
  ⟨fun _ _ _ h1 h2 => Nat.le_trans h1 h2⟩

/-- `execute_many(state, cache, txs)` = `Schedule::new(state, txs).run(state,
cache)` collected: run every dependency tree (`rayon`'s parallel flat-map
preserves order), sort the `(result, index)` pairs by original submission
index, and drop the indices. -/
def execute_many (ex : ExecFn) (state : StateFn) (txs : List Transaction) :
    List ExecResult :=
  let refs := scheduleRefs state txs
  let g := scheduleGraph refs
  let pairs := ((scheduleRoots refs).map (fun r => treeRun g ex txs r)).flatten
  (pairs.insertionSort ixLe).map Prod.fst

/-! ### Characterisation of `Tree::run` by the reference layers -/

theorem treeRunAux_eq (g : Graph) (ex : ExecFn) (txs : List Transaction)
    (root : Nat) : ∀ (fuel k : Nat) (b : BfsRows), BfsInv g root k b →
    layer g root (k + fuel) = [] →
    treeRunAux g ex txs fuel b (specAcc g ex txs root k) =
      ((List.range fuel).map (fun i =>
        rowResults ex txs (specAcc g ex txs root (k + i))
          (layer g root (k + i)))).flatten := by
  intro fuel
  induction fuel with
  | zero => intro k b _ _; rfl
  | succ fuel ih =>
    intro k b hinv hempty
    obtain ⟨hout, hinv2⟩ := bfs_step g root k b hinv
    show treeRunAux g ex txs (fuel + 1) b (specAcc g ex txs root k) = _
    by_cases hL : (layer g root k).length = 0
    · rw [if_pos hL] at hout
      have hLnil : layer g root k = [] := List.length_eq_zero.mp hL
      have hpair : BfsRows.next g b = (none, (BfsRows.next g b).2) :=
        Prod.ext hout rfl
      have hlhs : treeRunAux g ex txs (fuel + 1) b (specAcc g ex txs root k)
          = [] := by
        show (match BfsRows.next g b with
          | (none, _) => []
          | (some row, b2) =>
            rowResults ex txs (specAcc g ex txs root k) row ++
              treeRunAux g ex txs fuel b2
                (applyRow (specAcc g ex txs root k)
                  (rowResults ex txs (specAcc g ex txs root k) row))) = []
        rw [hpair]
      rw [hlhs]
      symm
      apply List.flatten_eq_nil_iff.mpr
      intro l hl
      obtain ⟨i, hi, rfl⟩ := List.mem_map.mp hl
      have : layer g root (k + i) = [] :=
        layer_empty_mono g root k (k + i) (by omega) hLnil
      rw [this]
      rfl
    · rw [if_neg hL] at hout
      have hpair : BfsRows.next g b =
          (some (layer g root k), (BfsRows.next g b).2) :=
        Prod.ext hout rfl
      have hlhs : treeRunAux g ex txs (fuel + 1) b (specAcc g ex txs root k) =
          rowResults ex txs (specAcc g ex txs root k) (layer g root k) ++
            treeRunAux g ex txs fuel (BfsRows.next g b).2
              (applyRow (specAcc g ex txs root k)
                (rowResults ex txs (specAcc g ex txs root k)
                  (layer g root k))) := by
        show (match BfsRows.next g b with
          | (none, _) => []
          | (some row, b2) =>
            rowResults ex txs (specAcc g ex txs root k) row ++
              treeRunAux g ex txs fuel b2
                (applyRow (specAcc g ex txs root k)
                  (rowResults ex txs (specAcc g ex txs root k) row))) = _
        rw [hpair]
      rw [hlhs]
      have hacc : applyRow (specAcc g ex txs root k)
          (rowResults ex txs (specAcc g ex txs root k) (layer g root k)) =
          specAcc g ex txs root (k + 1) := rfl
      rw [hacc]
      rw [ih (k + 1) (BfsRows.next g b).2 hinv2
        (by rw [show k + 1 + fuel = k + (fuel + 1) by omega]; exact hempty)]
      rw [List.range_succ_eq_map]
      simp only [List.map_cons, List.flatten_cons, List.map_map]
      congr 1
      congr 1
      apply List.map_congr_left
      intro i _
      simp only [Function.comp_apply]
      rw [show k + 1 + i = k + (i + 1) from by omega]

theorem treeRun_eq (g : Graph) (ex : ExecFn) (txs : List Transaction)
    (root : Nat) (hroot : root < g.n) :
    treeRun g ex txs root =
      ((List.range (g.n + 1)).map (fun k =>
        rowResults ex txs (specAcc g ex txs root k) (layer g root k))).flatten := by
  have hempty : layer g root (0 + (g.n + 1)) = [] := by
    rw [Nat.zero_add]
    exact layer_empty_succ g root g.n (layer_empty_at_n g root hroot)
  have h := treeRunAux_eq g ex txs root (g.n + 1) 0 (BfsRows.new root)
    (bfsInv_new g root) hempty
  unfold treeRun
  rw [show (default : StateDiff) = specAcc g ex txs root 0 from rfl]
  rw [h]
  congr 1
  apply List.map_congr_left
  intro i _
  rw [Nat.zero_add]

/-! ### Roots, the backward walk, and weak connectivity -/

theorem mem_scheduleEdges_lt (refs : List TransactionRefs) (e : Nat × Nat)
    (h : e ∈ scheduleEdges refs) : e.1 < refs.length ∧ e.2 < refs.length := by
  rcases e with ⟨k, j⟩
  have hp := (mem_scheduleEdges refs k j).mp h
  have hk := parentOf_lt refs j k hp
  have hj : j < refs.length := by
    unfold parentOf at hp
    cases hg : refs[j]? with
    | none => rw [hg] at hp; simp at hp
    | some r0 => exact getElem?_some_lt refs j r0 hg
  exact ⟨by omega, hj⟩

theorem getLast?_all_eq {α : Type} (l : List α) (a : α) (hne : l ≠ [])
    (hall : ∀ x ∈ l, x = a) : l.getLast? = some a := by
  rw [List.getLast?_eq_getLast l hne]
  exact congrArg some (hall _ (List.getLast_mem hne))

theorem lastIncoming_eq_parentOf (refs : List TransactionRefs) (v : Nat) :
    lastIncoming (scheduleGraph refs) v = parentOf refs v := by
  unfold lastIncoming
  cases hp : parentOf refs v with
  | none =>
    have hfil : (scheduleGraph refs).edges.filter
        (fun e => decide (e.2 = v)) = [] := by
      apply List.filter_eq_nil_iff.mpr
      intro e he
      simp only [decide_eq_true_eq]
      intro hev
      rcases e with ⟨k, j⟩
      simp only at hev
      have hpj := (mem_scheduleEdges refs k j).mp he
      rw [hev, hp] at hpj
      exact Option.noConfusion hpj
    rw [hfil]
    rfl
  | some k =>
    have hmem : ((k, v) : Nat × Nat) ∈ (scheduleGraph refs).edges :=
      (mem_scheduleEdges refs k v).mpr hp
    have hfmem : ((k, v) : Nat × Nat) ∈ (scheduleGraph refs).edges.filter
        (fun e => decide (e.2 = v)) := by
      apply List.mem_filter.mpr
      exact ⟨hmem, by simp⟩
    apply getLast?_all_eq
    · intro hnil
      rw [List.map_eq_nil_iff] at hnil
      rw [hnil] at hfmem
      exact List.not_mem_nil _ hfmem
    · intro x hx
      obtain ⟨e, he, rfl⟩ := List.mem_map.mp hx
      obtain ⟨he2, hev⟩ := List.mem_filter.mp he
      rcases e with ⟨k2, j⟩
      simp only [decide_eq_true_eq] at hev
      have hpj := (mem_scheduleEdges refs k2 j).mp he2
      rw [hev, hp] at hpj
      injection hpj with hpj
      exact hpj.symm

theorem rootWalkAux_unfold (refs : List TransactionRefs) (fuel v : Nat) :
    rootWalkAux (scheduleGraph refs) (fuel + 1) v =
      (match parentOf refs v with
       | none => v
       | some u => rootWalkAux (scheduleGraph refs) fuel u) := by
  show (match lastIncoming (scheduleGraph refs) v with
    | none => v
    | some u => rootWalkAux (scheduleGraph refs) fuel u) = _
  rw [lastIncoming_eq_parentOf]

theorem rootWalkAux_parentless (refs : List TransactionRefs) (fuel v : Nat)
    (h : parentOf refs v = none) :
    rootWalkAux (scheduleGraph refs) fuel v = v := by
  cases fuel with
  | zero => rfl
  | succ fuel => rw [rootWalkAux_unfold, h]

theorem rootWalkAux_fix (refs : List TransactionRefs) :
    ∀ fuel v, v < fuel →
      parentOf refs (rootWalkAux (scheduleGraph refs) fuel v) = none := by
  intro fuel
  induction fuel with
  | zero => intro v hv; omega
  | succ fuel ih =>
    intro v hv
    rw [rootWalkAux_unfold]
    cases hp : parentOf refs v with
    | none => exact hp
    | some u =>
      have hu := parentOf_lt refs v u hp
      exact ih u (by omega)

theorem rootWalkAux_stable (refs : List TransactionRefs) :
    ∀ v f1 f2, v < f1 → v < f2 →
      rootWalkAux (scheduleGraph refs) f1 v =
        rootWalkAux (scheduleGraph refs) f2 v := by
  intro v
  induction v using Nat.strong_induction_on with
  | _ v ih =>
    intro f1 f2 h1 h2
    obtain ⟨a, rfl⟩ : ∃ a, f1 = a + 1 := ⟨f1 - 1, by omega⟩
    obtain ⟨b, rfl⟩ : ∃ b, f2 = b + 1 := ⟨f2 - 1, by omega⟩
    rw [rootWalkAux_unfold, rootWalkAux_unfold]
    cases hp : parentOf refs v with
    | none => rfl
    | some u =>
      have hu := parentOf_lt refs v u hp
      exact ih u (by omega) a b (by omega) (by omega)

theorem rootWalk_parentless (refs : List TransactionRefs) (v : Nat)
    (h : parentOf refs v = none) :
    rootWalk (scheduleGraph refs) v = v :=
  rootWalkAux_parentless refs _ v h

theorem rootWalk_step (refs : List TransactionRefs) (v u : Nat)
    (hv : v < refs.length) (h : parentOf refs v = some u) :
    rootWalk (scheduleGraph refs) v = rootWalk (scheduleGraph refs) u := by
  have hu := parentOf_lt refs v u h
  unfold rootWalk
  have hn : (scheduleGraph refs).n = refs.length := rfl
  rw [hn]
  obtain ⟨m, hm⟩ : ∃ m, refs.length = m + 1 := ⟨refs.length - 1, by omega⟩
  rw [hm, rootWalkAux_unfold, h]
  exact rootWalkAux_stable refs u m (m + 1) (by omega) (by omega)

theorem rootWalk_fix (refs : List TransactionRefs) (v : Nat)
    (hv : v < refs.length) :
    parentOf refs (rootWalk (scheduleGraph refs) v) = none :=
  rootWalkAux_fix refs refs.length v hv

theorem rootWalk_lt (refs : List TransactionRefs) (v : Nat)
    (hv : v < refs.length) :
    rootWalk (scheduleGraph refs) v < refs.length := by
  induction v using Nat.strong_induction_on with
  | _ v ih =>
    cases hp : parentOf refs v with
    | none => rw [rootWalk_parentless refs v hp]; exact hv
    | some u =>
      have hu := parentOf_lt refs v u hp
      rw [rootWalk_step refs v u hv hp]
      exact ih u (by omega) (by omega)

theorem rootWalk_idem (refs : List TransactionRefs) (v : Nat)
    (hv : v < refs.length) :
    rootWalk (scheduleGraph refs) (rootWalk (scheduleGraph refs) v) =
      rootWalk (scheduleGraph refs) v :=
  rootWalk_parentless refs _ (rootWalk_fix refs v hv)

/-- Weak adjacency: the dependency DAG viewed as an undirected graph. -/
def edgeAdj (g : Graph) (u v : Nat) : Prop :=
  (u, v) ∈ g.edges ∨ (v, u) ∈ g.edges

/-- Weak connectivity: two nodes are in the same weakly connected component. -/
def Conn (g : Graph) : Nat → Nat → Prop := Relation.ReflTransGen (edgeAdj g)

theorem conn_rootWalk (refs : List TransactionRefs) :
    ∀ v, v < refs.length →
      Conn (scheduleGraph refs) v (rootWalk (scheduleGraph refs) v) := by
  intro v
  induction v using Nat.strong_induction_on with
  | _ v ih =>
    intro hv
    cases hp : parentOf refs v with
    | none =>
      rw [rootWalk_parentless refs v hp]
      exact Relation.ReflTransGen.refl
    | some u =>
      have hu := parentOf_lt refs v u hp
      rw [rootWalk_step refs v u hv hp]
      have h1 : edgeAdj (scheduleGraph refs) v u :=
        Or.inr ((mem_scheduleEdges refs u v).mpr hp)
      exact Relation.ReflTransGen.head h1 (ih u (by omega) (by omega))

theorem conn_rootWalk_eq (refs : List TransactionRefs) (u v : Nat)
    (h : Conn (scheduleGraph refs) u v) (hu : u < refs.length) :
    v < refs.length ∧
      rootWalk (scheduleGraph refs) u = rootWalk (scheduleGraph refs) v := by
  induction h with
  | refl => exact ⟨hu, rfl⟩
  | tail hconn hstep ih =>
    rename_i b c
    obtain ⟨hb, hw⟩ := ih
    have hc : c < refs.length := by
      rcases hstep with h1 | h1
      · exact (mem_scheduleEdges_lt refs _ h1).2
      · exact (mem_scheduleEdges_lt refs _ h1).1
    refine ⟨hc, ?_⟩
    rw [hw]
    rcases hstep with h1 | h1
    · have hp : parentOf refs c = some b := (mem_scheduleEdges refs b c).mp h1
      exact (rootWalk_step refs c b hc hp).symm
    · have hp : parentOf refs b = some c := (mem_scheduleEdges refs c b).mp h1
      exact rootWalk_step refs b c hb hp

theorem scheduleRoots_eq_dedup (refs : List TransactionRefs) :
    scheduleRoots refs =
      ((scheduleLabels refs).insertionSort (· ≤ ·)).dedup := by
  unfold scheduleRoots
  have hid : ∀ x ∈ ((scheduleLabels refs).insertionSort (· ≤ ·)).dedup,
      rootWalk (scheduleGraph refs) x = x := by
    intro x hx
    have hx2 : x ∈ scheduleLabels refs :=
      (List.perm_insertionSort (· ≤ ·) (scheduleLabels refs)).subset
        (List.mem_dedup.mp hx)
    obtain ⟨v, hv, rfl⟩ := List.mem_map.mp hx2
    have hvn : v < refs.length := List.mem_range.mp hv
    exact rootWalk_idem refs v hvn
  rw [List.map_congr_left hid]
  simp

theorem mem_scheduleRoots (refs : List TransactionRefs) (r : Nat) :
    r ∈ scheduleRoots refs ↔
      ∃ v, v < refs.length ∧ rootWalk (scheduleGraph refs) v = r := by
  rw [scheduleRoots_eq_dedup, List.mem_dedup,
    (List.perm_insertionSort (· ≤ ·) (scheduleLabels refs)).mem_iff]
  unfold scheduleLabels
  simp only [List.mem_map, List.mem_range]

theorem scheduleRoots_nodup (refs : List TransactionRefs) :
    (scheduleRoots refs).Nodup := by
  rw [scheduleRoots_eq_dedup]
  exact List.nodup_dedup _

theorem scheduleRoots_parentless (refs : List TransactionRefs) (r : Nat)
    (hr : r ∈ scheduleRoots refs) :
    parentOf refs r = none ∧ r < refs.length := by
  obtain ⟨v, hv, rfl⟩ := (mem_scheduleRoots refs r).mp hr
  exact ⟨rootWalk_fix refs v hv, rootWalk_lt refs v hv⟩

/-- **C6.** For every dependency graph built by `Schedule::new`,
`Schedule::roots` returns exactly one node per weakly connected component
(the union-find labelling, sorted and deduplicated, yields one representative
per component, and the backward walk sends every representative to its
component's root), the backward walk along incoming edges terminates (it is
stable under any additional fuel and ends at a node with no incoming edge),
and every returned root has no incoming edges. -/
theorem c6_schedule_roots (state : StateFn) (txs : List Transaction) :
    (∀ r ∈ scheduleRoots (scheduleRefs state txs),
      ∀ e ∈ scheduleEdges (scheduleRefs state txs), e.2 ≠ r) ∧
    (∀ v, v < (scheduleRefs state txs).length →
      ∃! r, r ∈ scheduleRoots (scheduleRefs state txs) ∧
        Conn (scheduleGraph (scheduleRefs state txs)) v r) ∧
    (∀ v, v < (scheduleRefs state txs).length →
      lastIncoming (scheduleGraph (scheduleRefs state txs))
        (rootWalk (scheduleGraph (scheduleRefs state txs)) v) = none ∧
      ∀ extra, rootWalkAux (scheduleGraph (scheduleRefs state txs))
          ((scheduleRefs state txs).length + extra) v =
        rootWalk (scheduleGraph (scheduleRefs state txs)) v) := by
  set refs := scheduleRefs state txs with hrefs
  refine ⟨?_, ?_, ?_⟩
  · intro r hr e he hev
    obtain ⟨hp, _⟩ := scheduleRoots_parentless refs r hr
    rcases e with ⟨k, j⟩
    simp only at hev
    have hpj := (mem_scheduleEdges refs k j).mp he
    rw [hev, hp] at hpj
    exact Option.noConfusion hpj
  · intro v hv
    refine ⟨rootWalk (scheduleGraph refs) v, ⟨?_, ?_⟩, ?_⟩
    · exact (mem_scheduleRoots refs _).mpr ⟨v, hv, rfl⟩
    · exact conn_rootWalk refs v hv
    · intro r2 ⟨hr2, hconn⟩
      obtain ⟨hrn, hwalk⟩ := conn_rootWalk_eq refs v r2 hconn hv
      obtain ⟨u, hu, rfl⟩ := (mem_scheduleRoots refs r2).mp hr2
      rw [rootWalk_idem refs u hu] at hwalk
      exact hwalk.symm
  · intro v hv
    constructor
    · rw [lastIncoming_eq_parentOf]
      exact rootWalk_fix refs v hv
    · intro extra
      exact rootWalkAux_stable refs v (refs.length + extra) refs.length
        (by omega) hv

/-! ### Assembling `execute_many`: index coverage and ordering -/

theorem mem_layers_iff_reach (g : Graph) (root v : Nat) :
    (∃ k, v ∈ layer g root k) ↔ (∃ k, v ∈ reachSet g root k) := by
  constructor
  · intro ⟨k, hk⟩
    exact ⟨k, (((discTo_layer_reach g root k).2 v).mp hk).1⟩
  · intro hex
    refine ⟨Nat.find hex, ?_⟩
    exact ((discTo_layer_reach g root (Nat.find hex)).2 v).mpr
      ⟨Nat.find_spec hex, fun j hj => Nat.find_min hex hj⟩

theorem rowResults_snd (ex : ExecFn) (txs : List Transaction) (acc : StateDiff)
    (row : List Nat) : (rowResults ex txs acc row).map Prod.snd = row := by
  unfold rowResults
  rw [List.map_map]
  exact List.map_id _

/-- The multiset of node indices visited by the tree rooted at `root`. -/
def treeNodes (g : Graph) (root : Nat) : List Nat :=
  ((List.range (g.n + 1)).map (fun k => layer g root k)).flatten

theorem treeRun_snd (g : Graph) (ex : ExecFn) (txs : List Transaction)
    (root : Nat) (hroot : root < g.n) :
    (treeRun g ex txs root).map Prod.snd = treeNodes g root := by
  rw [treeRun_eq g ex txs root hroot]
  unfold treeNodes
  rw [List.map_flatten, List.map_map]
  congr 1
  apply List.map_congr_left
  intro k _
  exact rowResults_snd ex txs _ _

theorem treeNodes_nodup (g : Graph) (root : Nat) : (treeNodes g root).Nodup := by
  unfold treeNodes
  rw [List.nodup_flatten]
  constructor
  · intro l hl
    obtain ⟨k, _, rfl⟩ := List.mem_map.mp hl
    exact layer_nodup g root k
  · rw [List.pairwise_map]
    have hlt : List.Pairwise (· < ·) (List.range (g.n + 1)) :=
      List.pairwise_lt_range _
    apply hlt.imp
    intro j k hjk
    intro x hx1 hx2
    exact layer_pairwise_disjoint g root j k x hjk hx1 hx2

theorem mem_treeNodes (g : Graph) (root v : Nat) (hroot : root < g.n) :
    v ∈ treeNodes g root ↔ ∃ k, v ∈ reachSet g root k := by
  rw [← mem_layers_iff_reach]
  unfold treeNodes
  rw [List.mem_flatten]
  constructor
  · intro ⟨l, hl, hv⟩
    obtain ⟨k, _, rfl⟩ := List.mem_map.mp hl
    exact ⟨k, hv⟩
  · intro ⟨k, hk⟩
    have hhk : k < g.n + 1 := by
      by_contra hge
      have : layer g root k = [] :=
        layer_empty_mono g root g.n k (by omega) (layer_empty_at_n g root hroot)
      rw [this] at hk
      exact List.not_mem_nil v hk
    exact ⟨layer g root k, List.mem_map.mpr ⟨k, List.mem_range.mpr hhk, rfl⟩, hk⟩

theorem mem_treeNodes_lt (g : Graph) (root v : Nat) (hroot : root < g.n)
    (h : v ∈ treeNodes g root) : v < g.n := by
  unfold treeNodes at h
  obtain ⟨l, hl, hv⟩ := List.mem_flatten.mp h
  obtain ⟨k, _, rfl⟩ := List.mem_map.mp hl
  exact layer_lt_n g root hroot k v hv

/-- Reachability from the walk's root: every node is in the tree of its own
root. -/
theorem reach_from_rootWalk (refs : List TransactionRefs) :
    ∀ v, v < refs.length →
      ∃ k, v ∈ reachSet (scheduleGraph refs)
        (rootWalk (scheduleGraph refs) v) k := by
  intro v
  induction v using Nat.strong_induction_on with
  | _ v ih =>
    intro hv
    cases hp : parentOf refs v with
    | none =>
      rw [rootWalk_parentless refs v hp]
      exact ⟨0, List.mem_singleton.mpr rfl⟩
    | some u =>
      have hu := parentOf_lt refs v u hp
      rw [rootWalk_step refs v u hv hp]
      obtain ⟨k, hk⟩ := ih u (by omega) (by omega)
      refine ⟨k + 1, List.mem_flatMap.mpr ⟨u, hk, ?_⟩⟩
      apply (mem_adj (scheduleGraph refs) u v).mpr
      exact ⟨(mem_scheduleEdges refs u v).mpr hp, hv⟩

/-- Conversely, every node in the tree of `r` has walk-root `rootWalk r`. -/
theorem reach_imp_rootWalk_eq (refs : List TransactionRefs) (r : Nat) :
    ∀ k v, v ∈ reachSet (scheduleGraph refs) r k → v < refs.length →
      rootWalk (scheduleGraph refs) v = rootWalk (scheduleGraph refs) r := by
  intro k
  induction k with
  | zero =>
    intro v hv _
    have : v = r := List.mem_singleton.mp hv
    rw [this]
  | succ k ih =>
    intro v hv hvn
    obtain ⟨u, hu, hadj⟩ := List.mem_flatMap.mp hv
    have hedge := ((mem_adj (scheduleGraph refs) u v).mp hadj).1
    have hun : u < refs.length := (mem_scheduleEdges_lt refs _ hedge).1
    have hp : parentOf refs v = some u := (mem_scheduleEdges refs u v).mp hedge
    rw [rootWalk_step refs v u hvn hp]
    exact ih u hu hun

/-- The `(result, index)` pairs gathered from all trees before sorting. -/
def schedulePairs (ex : ExecFn) (state : StateFn) (txs : List Transaction) :
    List (ExecResult × Nat) :=
  ((scheduleRoots (scheduleRefs state txs)).map
    (fun r => treeRun (scheduleGraph (scheduleRefs state txs)) ex txs r)).flatten

theorem execute_many_eq (ex : ExecFn) (state : StateFn)
    (txs : List Transaction) :
    execute_many ex state txs =
      ((schedulePairs ex state txs).insertionSort ixLe).map Prod.fst := rfl

theorem scheduleRefs_length (state : StateFn) (txs : List Transaction) :
    (scheduleRefs state txs).length = txs.length := List.length_map _ _

theorem rootWalk_self (refs : List TransactionRefs) (r : Nat)
    (hr : r ∈ scheduleRoots refs) : rootWalk (scheduleGraph refs) r = r :=
  rootWalk_parentless refs r (scheduleRoots_parentless refs r hr).1

theorem mem_treeNodes_walk (refs : List TransactionRefs) (r v : Nat)
    (hr : r ∈ scheduleRoots refs)
    (hv : v ∈ treeNodes (scheduleGraph refs) r) :
    rootWalk (scheduleGraph refs) v = r := by
  have hrn : r < refs.length := (scheduleRoots_parentless refs r hr).2
  have hvn : v < refs.length :=
    mem_treeNodes_lt (scheduleGraph refs) r v hrn hv
  obtain ⟨k, hk⟩ := (mem_treeNodes (scheduleGraph refs) r v hrn).mp hv
  rw [reach_imp_rootWalk_eq refs r k v hk hvn]
  exact rootWalk_self refs r hr

theorem schedulePairs_snd (ex : ExecFn) (state : StateFn)
    (txs : List Transaction) :
    (schedulePairs ex state txs).map Prod.snd =
      ((scheduleRoots (scheduleRefs state txs)).map
        (fun r => treeNodes (scheduleGraph (scheduleRefs state txs)) r)).flatten := by
  unfold schedulePairs
  rw [List.map_flatten, List.map_map]
  congr 1
  apply List.map_congr_left
  intro r hr
  exact treeRun_snd _ ex txs r (scheduleRoots_parentless _ r hr).2

theorem schedulePairs_snd_nodup (ex : ExecFn) (state : StateFn)
    (txs : List Transaction) :
    ((schedulePairs ex state txs).map Prod.snd).Nodup := by
  rw [schedulePairs_snd]
  rw [List.nodup_flatten]
  constructor
  · intro l hl
    obtain ⟨r, _, rfl⟩ := List.mem_map.mp hl
    exact treeNodes_nodup _ r
  · rw [List.pairwise_map]
    apply List.Pairwise.imp_of_mem ?_ (scheduleRoots_nodup (scheduleRefs state txs))
    intro r1 r2 h1 h2 hne
    intro x hx1 hx2
    have e1 := mem_treeNodes_walk (scheduleRefs state txs) r1 x h1 hx1
    have e2 := mem_treeNodes_walk (scheduleRefs state txs) r2 x h2 hx2
    exact hne (e1 ▸ e2)

theorem schedulePairs_snd_perm (ex : ExecFn) (state : StateFn)
    (txs : List Transaction) :
    ((schedulePairs ex state txs).map Prod.snd).Perm
      (List.range txs.length) := by
  apply (List.perm_ext_iff_of_nodup (schedulePairs_snd_nodup ex state txs)
    (List.nodup_range _)).mpr
  intro v
  rw [schedulePairs_snd, List.mem_flatten, List.mem_range]
  constructor
  · intro ⟨l, hl, hv⟩
    obtain ⟨r, hr, rfl⟩ := List.mem_map.mp hl
    have hrn := (scheduleRoots_parentless _ r hr).2
    have h2 : v < (scheduleRefs state txs).length :=
      mem_treeNodes_lt _ r v hrn hv
    rw [scheduleRefs_length] at h2
    exact h2
  · intro hv
    have hvn : v < (scheduleRefs state txs).length := by
      rw [scheduleRefs_length]; exact hv
    set refs := scheduleRefs state txs
    refine ⟨treeNodes (scheduleGraph refs) (rootWalk (scheduleGraph refs) v),
      List.mem_map.mpr ⟨rootWalk (scheduleGraph refs) v,
        (mem_scheduleRoots refs _).mpr ⟨v, hvn, rfl⟩, rfl⟩, ?_⟩
    apply (mem_treeNodes (scheduleGraph refs) _ v (rootWalk_lt refs v hvn)).mpr
    exact reach_from_rootWalk refs v hvn

theorem scheduleSorted_snd (ex : ExecFn) (state : StateFn)
    (txs : List Transaction) :
    (((schedulePairs ex state txs).insertionSort ixLe).map Prod.snd) =
      List.range txs.length := by
  apply List.eq_of_perm_of_sorted (r := (· ≤ · : Nat → Nat → Prop))
  · exact ((List.perm_insertionSort ixLe _).map Prod.snd).trans
      (schedulePairs_snd_perm ex state txs)
  · exact List.Pairwise.map Prod.snd (fun a b h => h)
      (List.sorted_insertionSort ixLe _)
  · exact List.sorted_le_range _

theorem mem_treeRun (g : Graph) (ex : ExecFn) (txs : List Transaction)
    (root : Nat) (hroot : root < g.n) (p : ExecResult × Nat)
    (hp : p ∈ treeRun g ex txs root) :
    ∃ k, p.2 ∈ layer g root k ∧
      p = (ex (txAt txs p.2) (specAcc g ex txs root k), p.2) := by
  rw [treeRun_eq g ex txs root hroot] at hp
  obtain ⟨l, hl, hpl⟩ := List.mem_flatten.mp hp
  obtain ⟨k, _, rfl⟩ := List.mem_map.mp hl
  obtain ⟨v, hv, rfl⟩ := List.mem_map.mp hpl
  exact ⟨k, hv, rfl⟩

/-- Central characterisation of `execute_many`: the output has one entry per
transaction, and the `i`-th entry is the result of executing transaction `i`
against the accumulated diff of its row in its dependency tree. -/
theorem scheduleRun_char (ex : ExecFn) (state : StateFn)
    (txs : List Transaction) :
    (execute_many ex state txs).length = txs.length ∧
    ∀ i, i < txs.length →
      ∃ k, i ∈ layer (scheduleGraph (scheduleRefs state txs))
          (rootWalk (scheduleGraph (scheduleRefs state txs)) i) k ∧
        (execute_many ex state txs)[i]? =
          some (ex (txAt txs i)
            (specAcc (scheduleGraph (scheduleRefs state txs)) ex txs
              (rootWalk (scheduleGraph (scheduleRefs state txs)) i) k)) := by
  set refs := scheduleRefs state txs with hrefs
  set g := scheduleGraph refs with hgdef
  have hsnd := scheduleSorted_snd ex state txs
  have hlen : (execute_many ex state txs).length = txs.length := by
    rw [execute_many_eq, List.length_map]
    have hc := congrArg List.length hsnd
    rw [List.length_map, List.length_range] at hc
    exact hc
  refine ⟨hlen, ?_⟩
  intro i hi
  have hgeti : (((schedulePairs ex state txs).insertionSort ixLe).map
      Prod.snd)[i]? = some i := by
    rw [hsnd]
    exact List.getElem?_range hi
  rw [List.getElem?_map] at hgeti
  cases hpi : ((schedulePairs ex state txs).insertionSort ixLe)[i]? with
  | none =>
    rw [hpi] at hgeti
    exact absurd hgeti (by simp)
  | some p =>
    rw [hpi] at hgeti
    have hp2 : p.2 = i := by
      have : some p.2 = some i := hgeti
      injection this
    have hmem : p ∈ (schedulePairs ex state txs).insertionSort ixLe :=
      List.getElem?_mem hpi
    have hmem2 : p ∈ schedulePairs ex state txs :=
      (List.perm_insertionSort ixLe _).subset hmem
    obtain ⟨l, hl, hpl⟩ := List.mem_flatten.mp hmem2
    obtain ⟨r, hr, rfl⟩ := List.mem_map.mp hl
    have hrn : r < g.n := (scheduleRoots_parentless refs r hr).2
    obtain ⟨k, hk, hpe⟩ := mem_treeRun g ex txs r hrn p hpl
    have hvn : p.2 < refs.length := layer_lt_n g r hrn k p.2 hk
    obtain ⟨k2, hk2⟩ := (mem_layers_iff_reach g r p.2).mp ⟨k, hk⟩
    have hwalk : rootWalk g p.2 = r := by
      rw [reach_imp_rootWalk_eq refs r k2 p.2 hk2 hvn]
      exact rootWalk_self refs r hr
    refine ⟨k, ?_, ?_⟩
    · rw [← hp2, hwalk]
      exact hk
    · rw [execute_many_eq, List.getElem?_map, hpi]
      rw [← hp2, hwalk]
      rw [hpe]
      rfl

/-- **C1.** For every state, cache, and finite input sequence of transactions,
`execute_many` returns a list whose length equals the number of input
transactions, and whose `i`-th element is the execution result of the `i`-th
submitted transaction (the result of running transaction `i` against the
overlay it was scheduled with), restored to submission order after parallel
tree execution. -/
theorem c1_execute_many_length_order (ex : ExecFn) (state : StateFn)
    (txs : List Transaction) :
    (execute_many ex state txs).length = txs.length ∧
    ∀ i, i < txs.length → ∃ acc,
      (execute_many ex state txs)[i]? = some (ex (txAt txs i) acc) := by
  obtain ⟨hlen, hchar⟩ := scheduleRun_char ex state txs
  refine ⟨hlen, ?_⟩
  intro i hi
  obtain ⟨k, _, hout⟩ := hchar i hi
  exact ⟨_, hout⟩

/-! ### C2: error handling inside a tree -/

theorem applyRow_ok_only (results : List (ExecResult × Nat)) :
    ∀ acc : StateDiff,
      applyRow acc results =
        (results.filterMap (fun p => p.1.toOption)).foldl StateDiff.apply acc := by
  induction results with
  | nil => intro acc; rfl
  | cons p rest ih =>
    intro acc
    rcases p with ⟨r, ix⟩
    cases r with
    | ok d =>
      show applyRow (acc.apply d) rest = _
      rw [ih]
      rfl
    | error e =>
      show applyRow acc rest = _
      rw [ih]
      rfl

/-- **C2.** Within a single dependency tree, a transaction whose execution
returns an error contributes nothing to the accumulated diff (the accumulator
fold only applies the diffs of the successful results); every later row of
that tree still executes and observes exactly the diff accumulated from the
successful transactions of earlier rows (`Tree::run` equals the row-by-row
reference execution with the success-only accumulator `specAcc`); and every
error is surfaced in `execute_many`'s output at the failing transaction's
original submission index. -/
theorem c2_tree_error_handling (ex : ExecFn) (state : StateFn)
    (txs : List Transaction) :
    (∀ (acc : StateDiff) (results : List (ExecResult × Nat)),
      applyRow acc results =
        (results.filterMap (fun p => p.1.toOption)).foldl StateDiff.apply acc) ∧
    (∀ root, root < (scheduleGraph (scheduleRefs state txs)).n →
      treeRun (scheduleGraph (scheduleRefs state txs)) ex txs root =
        ((List.range ((scheduleGraph (scheduleRefs state txs)).n + 1)).map
          (fun k => rowResults ex txs
            (specAcc (scheduleGraph (scheduleRefs state txs)) ex txs root k)
            (layer (scheduleGraph (scheduleRefs state txs)) root k))).flatten) ∧
    (∀ i, i < txs.length → ∃ k,
      i ∈ layer (scheduleGraph (scheduleRefs state txs))
        (rootWalk (scheduleGraph (scheduleRefs state txs)) i) k ∧
      ∀ e, ex (txAt txs i)
          (specAcc (scheduleGraph (scheduleRefs state txs)) ex txs
            (rootWalk (scheduleGraph (scheduleRefs state txs)) i) k) =
          Except.error e →
        (execute_many ex state txs)[i]? = some (Except.error e)) := by
  refine ⟨fun acc results => applyRow_ok_only results acc, ?_, ?_⟩
  · intro root hroot
    exact treeRun_eq _ ex txs root hroot
  · intro i hi
    obtain ⟨k, hk, hout⟩ := (scheduleRun_char ex state txs).2 i hi
    refine ⟨k, hk, ?_⟩
    intro e he
    rw [hout, he]

end AnomaVM

namespace AnomaNet

/-! ## The gossip topic (`src/network/src/topic.rs`)

`PeerId` (a public-key fingerprint) and `Multiaddr` are opaque identifiers,
modelled by `Nat`.  The network command sink is modelled by a list of emitted
commands; the subscriber channel by a list of emitted payloads.  Message ids
are generated by `rand::random()` in the source and never inspected by any
implemented handler, so they are modelled as `0`.  The uniform-random choice
of `HashMap::keys().choose(rng)` is modelled by an explicit choice function
parameter `choose`. -/

abbrev PeerId := Nat
abbrev Multiaddr := Nat

structure AddressablePeer where
  peer_id : PeerId
  addresses : Finset Multiaddr
deriving DecidableEq

/-- Modelled from the spec: the network-wide options consumed by the overlay
(`crate::Config`; `config.rs` is not among the given sources).  Only the view
size options are consulted by the implemented handlers. -/
structure NetworkConfig where
  min_active_view_size : Nat
  max_active_view_size : Nat
  max_passive_view_size : Nat

inductive Action where
  | join (node : AddressablePeer)
  | forwardJoin (peer : AddressablePeer) (hop : Nat)
  | neighbor (highPriority : Bool)
  | shuffle (origin : AddressablePeer) (hop : Nat) (peers : List AddressablePeer)
  | shuffleReply (peers : List AddressablePeer)
  | disconnectMsg
  | gossip (payload : Nat)
deriving DecidableEq

structure Message where
  id : Nat
  topic : Nat
  action : Action
deriving DecidableEq

/-- Commands to the network layer (`crate::network::Command`). -/
inductive Command where
  | connect (addr : Multiaddr) (topic : Nat)
  | disconnectFrom (peer : PeerId) (topic : Nat)
  | sendMessage (peer : PeerId) (msg : Message)
deriving DecidableEq

inductive Event where
  | localAddressDiscovered (addr : Multiaddr)
  | peerConnected (p : AddressablePeer)
  | peerDisconnected (peer : PeerId) (graceful : Bool)
  | messageReceived (sender : PeerId) (msg : Message)

/-- `HashMap<PeerId, HashSet<Multiaddr>>`: a key set plus a lookup function. -/
structure PeerMap where
  keys : Finset PeerId
  addrsOf : PeerId → Finset Multiaddr

def PeerMap.empty : PeerMap := ⟨∅, fun _ => ∅⟩

def PeerMap.insert (m : PeerMap) (k : PeerId) (v : Finset Multiaddr) : PeerMap :=
  ⟨Insert.insert k m.keys, fun x => if x = k then v else m.addrsOf x⟩

def PeerMap.erase (m : PeerMap) (k : PeerId) : PeerMap :=
  ⟨m.keys.erase k, m.addrsOf⟩

/-- `HashMap::remove` without the mutation: the returned value. -/
def PeerMap.get? (m : PeerMap) (k : PeerId) : Option (Finset Multiaddr) :=
  if k ∈ m.keys then some (m.addrsOf k) else none

/-- The state of `TopicInner` together with the observable outputs (emitted
subscriber payloads and network commands, in order). -/
structure TopicInner where
  topicName : Nat
  bootstrap : List Multiaddr
  networkConfig : NetworkConfig
  this_node : AddressablePeer
  active_peers : PeerMap
  passive_peers : PeerMap
  pending_dials : Finset Multiaddr
  outmsgs : List Nat
  cmds : List Command

/-- `TopicInner::starved`. -/
def TopicInner.starved (s : TopicInner) : Prop :=
  s.active_peers.keys.card < s.networkConfig.min_active_view_size

instance (s : TopicInner) : Decidable s.starved := by
  unfold TopicInner.starved; infer_instance

/-- `TopicInner::insert_passive` (topic.rs lines 244–256): insert, then evict
a `choose`-selected entry if the passive view exceeds its limit. -/
def insert_passive (choose : Finset PeerId → PeerId) (s : TopicInner)
    (peer : AddressablePeer) : TopicInner :=
  let pp := s.passive_peers.insert peer.peer_id peer.addresses
  if pp.keys.card > s.networkConfig.max_passive_view_size then
    { s with passive_peers := pp.erase (choose pp.keys) }
  else
    { s with passive_peers := pp }

/-- `TopicInner::handle_peer_connected` (topic.rs lines 208–228): only when
starved, remove each of `p`'s addresses found in the pending dials and send
one `Join` per removed address. -/
def handle_peer_connected (s : TopicInner) (p : AddressablePeer) : TopicInner :=
  if s.starved then
    { s with
      pending_dials := s.pending_dials \ p.addresses,
      cmds := s.cmds ++ List.replicate (p.addresses ∩ s.pending_dials).card
        (Command.sendMessage p.peer_id
          ⟨0, s.topicName, Action.join s.this_node⟩) }
  else s

/-- `TopicInner::handle_peer_disconnected` (topic.rs lines 230–240): remove
the peer from the active view; if it was there and the disconnect was
graceful, move it to the passive view. -/
def handle_peer_disconnected (choose : Finset PeerId → PeerId) (s : TopicInner)
    (peer : PeerId) (graceful : Bool) : TopicInner :=
  match s.active_peers.get? peer with
  | none => s
  | some addrs =>
    let s2 := { s with active_peers := s.active_peers.erase peer }
    if graceful then insert_passive choose s2 ⟨peer, addrs⟩ else s2

/-- `TopicInner::consume_gossip` (topic.rs lines 423–428): emit the payload to
the subscribers, unconditionally — no id-based deduplication and no
re-broadcast happen in the source. -/
def consume_gossip (s : TopicInner) (payload : Nat) : TopicInner :=
  { s with outmsgs := s.outmsgs ++ [payload] }

/-- `TopicInner::handle_message_received`: `consume_join` only logs and bumps
a metrics counter; `consume_forward_join`, `consume_neighbor`,
`consume_shuffle`, `consume_shuffle_reply` and `consume_disconnect` are
`todo!()` stubs (they panic), modelled as `none`. -/
def handle_message_received (s : TopicInner) (_sender : PeerId) (msg : Message) :
    Option TopicInner :=
  match msg.action with
  | Action.join _ => some s
  | Action.gossip b => some (consume_gossip s b)
  | _ => none

/-- `Topic::inject_event`. -/
def handleEvent (choose : Finset PeerId → PeerId) (s : TopicInner) (e : Event) :
    Option TopicInner :=
  match e with
  | Event.localAddressDiscovered addr =>
    some { s with this_node :=
      ⟨s.this_node.peer_id, Insert.insert addr s.this_node.addresses⟩ }
  | Event.peerConnected p => some (handle_peer_connected s p)
  | Event.peerDisconnected peer graceful =>
    some (handle_peer_disconnected choose s peer graceful)
  | Event.messageReceived sender msg => handle_message_received s sender msg

/-- `Topic::new`: dial every bootstrap address and record it as pending. -/
def topicNew (topicName : Nat) (bootstrap : List Multiaddr)
    (ncfg : NetworkConfig) (node : AddressablePeer) : TopicInner :=
  { topicName := topicName
    bootstrap := bootstrap
    networkConfig := ncfg
    this_node := node
    active_peers := PeerMap.empty
    passive_peers := PeerMap.empty
    pending_dials := bootstrap.toFinset
    outmsgs := []
    cmds := bootstrap.map (fun a => Command.connect a topicName) }

/-- The states reachable from construction by injecting events (events whose
handler is a `todo!()` stub panic and produce no successor state). -/
inductive Reachable (choose : Finset PeerId → PeerId) : TopicInner → Prop where
  | init (topicName : Nat) (bootstrap : List Multiaddr) (ncfg : NetworkConfig)
      (node : AddressablePeer) :
      Reachable choose (topicNew topicName bootstrap ncfg node)
  | step (s : TopicInner) (e : Event) (s2 : TopicInner) :
      Reachable choose s → handleEvent choose s e = some s2 →
      Reachable choose s2

theorem reachable_views_empty (choose : Finset PeerId → PeerId)
    (s : TopicInner) (h : Reachable choose s) :
    s.active_peers.keys = ∅ ∧ s.passive_peers.keys = ∅ := by
  induction h with
  | init topicName bootstrap ncfg node => exact ⟨rfl, rfl⟩
  | step s e s2 hre hstep ih =>
    cases e with
    | localAddressDiscovered addr =>
      simp only [handleEvent] at hstep
      injection hstep with hstep
      rw [← hstep]
      exact ih
    | peerConnected p =>
      simp only [handleEvent] at hstep
      injection hstep with hstep
      rw [← hstep]
      unfold handle_peer_connected
      by_cases hst : s.starved
      · rw [if_pos hst]
        exact ih
      · rw [if_neg hst]
        exact ih
    | peerDisconnected peer graceful =>
      simp only [handleEvent] at hstep
      injection hstep with hstep
      rw [← hstep]
      unfold handle_peer_disconnected
      have hget : s.active_peers.get? peer = none := by
        unfold PeerMap.get?
        rw [if_neg]
        rw [ih.1]
        exact Finset.not_mem_empty peer
      rw [hget]
      exact ih
    | messageReceived sender msg =>
      simp only [handleEvent] at hstep
      unfold handle_message_received at hstep
      cases hact : msg.action with
      | join node =>
        rw [hact] at hstep
        injection hstep with hstep
        rw [← hstep]
        exact ih
      | gossip b =>
        rw [hact] at hstep
        injection hstep with hstep
        rw [← hstep]
        exact ih
      | forwardJoin peer hop =>
        rw [hact] at hstep
        exact Option.noConfusion hstep
      | neighbor hp =>
        rw [hact] at hstep
        exact Option.noConfusion hstep
      | shuffle origin hop peers =>
        rw [hact] at hstep
        exact Option.noConfusion hstep
      | shuffleReply peers =>
        rw [hact] at hstep
        exact Option.noConfusion hstep
      | disconnectMsg =>
        rw [hact] at hstep
        exact Option.noConfusion hstep

/-- **C7.** In every state of a `Topic` reachable from construction by any
sequence of injected events, the active and passive peer views are disjoint,
the passive view never exceeds `max_passive_view_size` entries, the active
view never exceeds `max_active_view_size` entries, and the local node's own
peer id is in neither view.  (In the given source no implemented handler ever
inserts into either view — the join/neighbor protocol handlers are stubs — so
both views stay empty in every reachable state and all four invariants hold.) -/
theorem c7_topic_view_invariants (choose : Finset PeerId → PeerId)
    (s : TopicInner) (h : Reachable choose s) :
    Disjoint s.active_peers.keys s.passive_peers.keys ∧
    s.passive_peers.keys.card ≤ s.networkConfig.max_passive_view_size ∧
    s.active_peers.keys.card ≤ s.networkConfig.max_active_view_size ∧
    s.this_node.peer_id ∉ s.active_peers.keys ∧
    s.this_node.peer_id ∉ s.passive_peers.keys := by
  obtain ⟨ha, hp⟩ := reachable_views_empty choose s h
  rw [ha, hp]
  refine ⟨Finset.disjoint_empty_left _, ?_, ?_, ?_, ?_⟩
  · simp
  · simp
  · exact Finset.not_mem_empty _
  · exact Finset.not_mem_empty _

theorem c7_topic_view_invariants_witness :
    Disjoint (topicNew 0 [3] ⟨1, 4, 4⟩ ⟨7, ∅⟩).active_peers.keys
      (topicNew 0 [3] ⟨1, 4, 4⟩ ⟨7, ∅⟩).passive_peers.keys ∧
    (topicNew 0 [3] ⟨1, 4, 4⟩ ⟨7, ∅⟩).passive_peers.keys.card ≤
      (topicNew 0 [3] ⟨1, 4, 4⟩ ⟨7, ∅⟩).networkConfig.max_passive_view_size ∧
    (topicNew 0 [3] ⟨1, 4, 4⟩ ⟨7, ∅⟩).active_peers.keys.card ≤
      (topicNew 0 [3] ⟨1, 4, 4⟩ ⟨7, ∅⟩).networkConfig.max_active_view_size ∧
    (topicNew 0 [3] ⟨1, 4, 4⟩ ⟨7, ∅⟩).this_node.peer_id ∉
      (topicNew 0 [3] ⟨1, 4, 4⟩ ⟨7, ∅⟩).active_peers.keys ∧
    (topicNew 0 [3] ⟨1, 4, 4⟩ ⟨7, ∅⟩).this_node.peer_id ∉
      (topicNew 0 [3] ⟨1, 4, 4⟩ ⟨7, ∅⟩).passive_peers.keys :=
  c7_topic_view_invariants (fun _ => 0) _ (Reachable.init 0 [3] ⟨1, 4, 4⟩ ⟨7, ∅⟩)

/-! ### C8: gossip deduplication (code bug) -/

/-- **C8 (code bug).** `consume_gossip`'s own doc comment says the message id
"is used to ignore duplicate messages", and the spec requires deduplication by
a bounded recent-id set plus re-broadcast to the other active peers; the
source does neither.  Receiving the same `(id, payload)` gossip twice emits
the payload to the subscriber stream twice, and no re-broadcast command is
ever sent. -/
theorem c8_gossip_duplicate_emitted_twice :
    ∃ s1 s2 : TopicInner,
      handleEvent (fun _ => 0) (topicNew 0 [] ⟨1, 4, 4⟩ ⟨7, ∅⟩)
        (Event.messageReceived 5 ⟨9, 0, Action.gossip 42⟩) = some s1 ∧
      handleEvent (fun _ => 0) s1
        (Event.messageReceived 5 ⟨9, 0, Action.gossip 42⟩) = some s2 ∧
      s2.outmsgs = [42, 42] ∧
      s2.cmds = [] :=
  ⟨_, _, rfl, rfl, rfl, rfl⟩

/-! ### C9: PeerConnected handling (corrected) -/

/-- **C9 (counterexample).** A freshly constructed topic with
`min_active_view_size = 1` and no pending dials: the active view is starved
and the connecting peer `9` is not in the active view, yet — contrary to the
claim that a Join is sent exactly when starved and the peer is not active —
no Join (no command at all) is sent, because none of the peer's addresses is
in the pending-dials set. -/
theorem c9_peer_connected_counterexample :
    (topicNew 0 [] ⟨1, 4, 4⟩ ⟨7, ∅⟩).starved ∧
    (9 : PeerId) ∉ (topicNew 0 [] ⟨1, 4, 4⟩ ⟨7, ∅⟩).active_peers.keys ∧
    (handle_peer_connected (topicNew 0 [] ⟨1, 4, 4⟩ ⟨7, ∅⟩)
      ⟨9, {3}⟩).cmds = [] := by
  refine ⟨by decide, by decide, by decide⟩

/-- **C9 (amended).** On `PeerConnected(p)`: if the active view is starved,
every address of `p` that is in the pending-dials set is removed from it and
one `Join` carrying this node's identity is sent to `p` per such address; if
the active view is not starved, nothing happens — pending dials are not
touched and no message is sent.  Whether `p` is already in the active view is
never consulted. -/
theorem c9_peer_connected_amended (s : TopicInner) (p : AddressablePeer) :
    (¬ s.starved → handle_peer_connected s p = s) ∧
    (s.starved →
      (handle_peer_connected s p).pending_dials =
        s.pending_dials \ p.addresses ∧
      (handle_peer_connected s p).cmds = s.cmds ++
        List.replicate (p.addresses ∩ s.pending_dials).card
          (Command.sendMessage p.peer_id
            ⟨0, s.topicName, Action.join s.this_node⟩) ∧
      (handle_peer_connected s p).active_peers = s.active_peers ∧
      (handle_peer_connected s p).passive_peers = s.passive_peers ∧
      (handle_peer_connected s p).outmsgs = s.outmsgs) := by
  unfold handle_peer_connected
  by_cases hst : s.starved
  · rw [if_pos hst]
    exact ⟨fun h => absurd hst h, fun _ => ⟨rfl, rfl, rfl, rfl, rfl⟩⟩
  · rw [if_neg hst]
    exact ⟨fun _ => rfl, fun h => absurd h hst⟩

/-! ### C10: PeerDisconnected handling (corrected) -/

/-- A concrete topic state with one active peer (5) and one passive peer (8),
`min_active_view_size = 1`. -/
def c10state : TopicInner :=
  { topicName := 0
    bootstrap := []
    networkConfig := ⟨1, 4, 4⟩
    this_node := ⟨7, ∅⟩
    active_peers := ⟨{5}, fun k => if k = 5 then {11} else ∅⟩
    passive_peers := ⟨{8}, fun k => if k = 8 then {12} else ∅⟩
    pending_dials := ∅
    outmsgs := []
    cmds := [] }

/-- **C10 (counterexample).** Gracefully disconnecting the only active peer
leaves the active view starved, yet — contrary to the claim that a random
passive entry is then promoted (removed from passive and dialed) — no command
is sent, the pending dials stay empty, and the passive view keeps all its
entries (plus the demoted peer). -/
theorem c10_peer_disconnected_counterexample :
    (handle_peer_disconnected (fun _ => 0) c10state 5 true).active_peers.keys.card <
      (handle_peer_disconnected (fun _ => 0) c10state 5
        true).networkConfig.min_active_view_size ∧
    (handle_peer_disconnected (fun _ => 0) c10state 5 true).cmds = [] ∧
    (handle_peer_disconnected (fun _ => 0) c10state 5 true).pending_dials = ∅ ∧
    (handle_peer_disconnected (fun _ => 0) c10state 5 true).passive_peers.keys =
      {5, 8} := by
  refine ⟨by decide, by decide, by decide, by decide⟩

theorem insert_passive_eq (choose : Finset PeerId → PeerId) (s : TopicInner)
    (peer : AddressablePeer) :
    insert_passive choose s peer =
      (if (s.passive_peers.insert peer.peer_id peer.addresses).keys.card >
          s.networkConfig.max_passive_view_size
       then { s with passive_peers :=
          ((s.passive_peers.insert peer.peer_id peer.addresses).erase
            (choose (s.passive_peers.insert peer.peer_id peer.addresses).keys)) }
       else { s with passive_peers :=
          (s.passive_peers.insert peer.peer_id peer.addresses) }) := rfl

theorem handle_peer_disconnected_eq (choose : Finset PeerId → PeerId)
    (s : TopicInner) (peer : PeerId) (graceful : Bool) :
    handle_peer_disconnected choose s peer graceful =
      if peer ∈ s.active_peers.keys then
        (if graceful
         then insert_passive choose
            { s with active_peers := s.active_peers.erase peer }
            ⟨peer, s.active_peers.addrsOf peer⟩
         else { s with active_peers := s.active_peers.erase peer })
      else s := by
  unfold handle_peer_disconnected PeerMap.get?
  by_cases hmem : peer ∈ s.active_peers.keys
  · rw [if_pos hmem, if_pos hmem]
  · rw [if_neg hmem, if_neg hmem]

/-- **C10 (amended).** On `PeerDisconnected(p, graceful)`: `p` is removed
from the active view; if the disconnect was graceful and `p` was active, the
removed entry is inserted into the passive view, evicting a `choose`-selected
entry when the passive view overflows (so a bounded passive view stays
bounded for any valid choice function); no passive entry is promoted — the
pending dials and the command sink are untouched. -/
theorem c10_peer_disconnected_amended (choose : Finset PeerId → PeerId)
    (s : TopicInner) (peer : PeerId) (graceful : Bool) :
    ((handle_peer_disconnected choose s peer graceful).active_peers.keys =
      s.active_peers.keys.erase peer) ∧
    ((handle_peer_disconnected choose s peer graceful).cmds = s.cmds) ∧
    ((handle_peer_disconnected choose s peer graceful).pending_dials =
      s.pending_dials) ∧
    (graceful = true → peer ∈ s.active_peers.keys →
      (Insert.insert peer s.passive_peers.keys).card ≤
        s.networkConfig.max_passive_view_size →
      (handle_peer_disconnected choose s peer graceful).passive_peers.keys =
        Insert.insert peer s.passive_peers.keys) ∧
    (peer ∉ s.active_peers.keys →
      handle_peer_disconnected choose s peer graceful = s) ∧
    ((∀ fs : Finset PeerId, fs.Nonempty → choose fs ∈ fs) →
      s.passive_peers.keys.card ≤ s.networkConfig.max_passive_view_size →
      (handle_peer_disconnected choose s peer graceful).passive_peers.keys.card ≤
        s.networkConfig.max_passive_view_size) := by
  rw [handle_peer_disconnected_eq]
  by_cases hmem : peer ∈ s.active_peers.keys
  · rw [if_pos hmem]
    cases graceful with
    | false =>
      rw [if_neg (by simp)]
      exact ⟨rfl, rfl, rfl, fun h => absurd h (by simp),
        fun h => absurd hmem h, fun _ h => h⟩
    | true =>
      rw [if_pos rfl]
      rw [insert_passive_eq]
      by_cases hover :
          ((s.passive_peers.insert peer (s.active_peers.addrsOf peer)).keys.card >
            s.networkConfig.max_passive_view_size)
      · rw [if_pos hover]
        refine ⟨rfl, rfl, rfl, ?_, fun h => absurd hmem h, ?_⟩
        · intro _ _ hle
          exact absurd hover (not_lt_of_le hle)
        · intro hch hle
          show ((s.passive_peers.insert peer
            (s.active_peers.addrsOf peer)).keys.erase
              (choose (s.passive_peers.insert peer
                (s.active_peers.addrsOf peer)).keys)).card ≤ _
          have hne : (s.passive_peers.insert peer
              (s.active_peers.addrsOf peer)).keys.Nonempty :=
            ⟨peer, Finset.mem_insert_self _ _⟩
          have hchmem := hch _ hne
          rw [Finset.card_erase_of_mem hchmem]
          have hins : (s.passive_peers.insert peer
              (s.active_peers.addrsOf peer)).keys.card ≤
              s.passive_peers.keys.card + 1 := Finset.card_insert_le _ _
          omega
      · rw [if_neg hover]
        refine ⟨rfl, rfl, rfl, fun _ _ _ => rfl, fun h => absurd hmem h, ?_⟩
        intro _ _
        show (s.passive_peers.insert peer
          (s.active_peers.addrsOf peer)).keys.card ≤ _
        omega
  · rw [if_neg hmem]
    exact ⟨(Finset.erase_eq_of_not_mem hmem).symm, rfl, rfl,
      fun _ h => absurd h hmem, fun _ => rfl, fun _ h => h⟩

end AnomaNet
